import Mathlib

/-!
Shallow embedding of the phone-number masking, parsing and validation core of
`src/index.tsx` (antd-phone-input).  JS strings are modelled as `List Char`;
JS `null`/`undefined` results as `Option`; the one runtime error that the
validator can raise (indexing a missing validation rule) as `Option` at the
result of `checkValidity`.
-/

namespace AntdPhone

/-- Slot-marker set, from the source: `const slots = new Set(".")`. -/
def slots : List Char := ['.']

/-- Membership test in the slot set: `slots.has(c)`. -/
def isSlot (c : Char) : Bool := slots.contains c

/-- Queue-consuming core of `cleanInput` (src line 33):
`Array.from(pattern, c => input[0] === c || slots.has(c) ? input.shift() || c : c)`.
The first argument is the digit queue, the second the template.  When the queue
is empty, `input[0]` is `undefined` (never equal to `c`) and `input.shift()`
is `undefined`, so `undefined || c` yields the template character; when the
queue head `d` equals the literal `c` or `c` is a slot, `d` (a nonempty digit
string, hence truthy) is emitted and dequeued. -/
def cleanGo : List Char → List Char → List Char
  | _, [] => []
  | [], c :: t => c :: cleanGo [] t
  | d :: q, c :: t =>
    if d == c || isSlot c then d :: cleanGo q t
    else c :: cleanGo (d :: q) t

/-- `cleanInput` (src lines 31-34): extract the digits of the input
(`input.match(/\d/g) || []`) and walk the template with them. -/
def cleanInput (input pattern : List Char) : List Char :=
  cleanGo (input.filter Char.isDigit) pattern

/-- String branch of `getRawValue` (src line 22): `value.replaceAll(/\D/g, "")`. -/
def getRawValue (value : List Char) : List Char := value.filter Char.isDigit

/-- First half of `displayFormat` (src line 28): `value.replace(/[.\s\D]+$/, "")`.
The class `[.\s\D]` is exactly the non-digits, so this removes the maximal
trailing run of non-digit characters. -/
def dropTrailingNonDigits (v : List Char) : List Char :=
  (v.reverse.dropWhile (fun c => !c.isDigit)).reverse

/-- Test for the second half of `displayFormat` (src line 28): the pattern
`(\(\d+)$` matches exactly when the string ends with `(` followed by one or
more digits running to the end. -/
def endsParenDigits (v : List Char) : Bool :=
  let r := v.reverse
  let ds := r.takeWhile Char.isDigit
  !ds.isEmpty && ((r.drop ds.length).head? == some '(')

/-- `displayFormat` (src lines 27-29): trim trailing non-digits, then close an
unmatched trailing `(<digits>` group with `)`. -/
def displayFormat (value : List Char) : List Char :=
  let t := dropTrailingNonDigits value
  if endsParenDigits t then t ++ [')'] else t

/-- One row of the country table: the source accesses rows positionally as
`c[0]` (ISO code), `c[1]` (display name), `c[2]` (decorative field),
`c[3]` (dial code), `c[4]` (mask template). -/
structure CountryRecord where
  isoCode : String
  displayName : String
  decorative : String
  dialCode : List Char
  maskTemplate : List Char
deriving DecidableEq

/-- JS `v.startsWith(p)` on strings-as-lists: `p` is a leading piece of `v`. -/
def startsWith : List Char → List Char → Bool
  | _, [] => true
  | [], _ :: _ => false
  | b :: v, a :: p => a == b && startsWith v p

/-- Candidate predicate of `getMetadata` (src line 17):
`rawValue.startsWith(c[3]) && (country == null || country === c[0])`. -/
def countryMatches (rawValue : List Char) (country : Option String)
    (c : CountryRecord) : Bool :=
  startsWith rawValue c.dialCode &&
    (match country with
     | none => true
     | some iso => iso == c.isoCode)

/-- `getMetadata` (src lines 16-18):
`countriesList.find(c => rawValue.startsWith(c[3]) && (country == null || country === c[0]))`. -/
def getMetadata (rawValue : List Char) (countriesList : List CountryRecord)
    (country : Option String) : Option CountryRecord :=
  countriesList.find? (countryMatches rawValue country)

/-- Result record of the parser (src line 66); every field may be `null`. -/
structure PhoneNumber where
  countryCode : Option Nat
  areaCode : Option Nat
  phoneNumber : Option (List Char)
  isoCode : Option String
deriving DecidableEq

/-- The decimal digit characters, used to render a natural number the way the
JS template literal renders a number. -/
def digitChar (d : Nat) : Char :=
  match d with
  | 0 => '0' | 1 => '1' | 2 => '2' | 3 => '3' | 4 => '4'
  | 5 => '5' | 6 => '6' | 7 => '7' | 8 => '8' | 9 => '9'
  | _ => 'x'

/-- Fuelled base-10 digit expansion (little-endian), kernel-reducible. -/
def digitsFuel : Nat → Nat → List Nat
  | 0, _ => []
  | fuel + 1, n => if n = 0 then [] else n % 10 :: digitsFuel fuel (n / 10)

/-- Base-10 digits of `n`, little-endian (`n` itself is always enough fuel). -/
def natDigits (n : Nat) : List Nat := digitsFuel n n

/-- Decimal rendering of a natural number, as the JS template literal
`${n}` renders a (non-negative integer) number. -/
def natRepr (n : Nat) : List Char :=
  if n = 0 then ['0'] else ((natDigits n).map digitChar).reverse

/-- Decimal value of a digit string, as `parseInt` computes it on an
(optionally `+`-prefixed) all-digit numeral. -/
def natOfChars (s : List Char) : Nat :=
  s.foldl (fun a c => 10 * a + (c.toNat - 48)) 0

/-- Leftmost match of the regex `/\+\d+/` (src line 50) : scan for the first
`+` that is followed by at least one digit and return the maximal digit run
after it. -/
def findPlusRun : List Char → Option (List Char)
  | [] => none
  | c :: rest =>
    if c == '+' then
      let run := rest.takeWhile Char.isDigit
      if run.isEmpty then findPlusRun rest else some run
    else findPlusRun rest

/-- Leftmost match of the regex `/\((\d+)\)/` (src line 51), returning the
capture group: the first `(` whose maximal following digit run is nonempty and
immediately followed by `)`. -/
def findParenRun : List Char → Option (List Char)
  | [] => none
  | c :: rest =>
    if c == '(' then
      let run := rest.takeWhile Char.isDigit
      if !run.isEmpty && ((rest.drop run.length).head? == some ')') then some run
      else findParenRun rest
    else findParenRun rest

/-- Literal part of the subscriber-number pattern (src line 62):
`` `^${countryCode}${(areaCode || "")}(\\d+)` ``.  A `null` country code is
interpolated as the text `null`; a `null` or `0` area code contributes
nothing (`0` is falsy in JS). -/
def ccAreaLit (countryCode : Option Nat) (areaCode : Option Nat) : List Char :=
  (match countryCode with
   | none => ['n', 'u', 'l', 'l']
   | some n => natRepr n) ++
  (match areaCode with
   | none => []
   | some a => if a = 0 then [] else natRepr a)

/-- `parsePhoneNumber` (src lines 47-67).  The anchored pattern
`^<lit>(\d+)` (where `<lit>` has no regex metacharacters) matches `value`
exactly when `<lit>` is a leading piece of `value` followed by at least one
digit; the greedy capture is the maximal digit run after `<lit>`. -/
def parsePhoneNumber (formattedNumber : List Char)
    (countriesList : List CountryRecord) (country : Option String) : PhoneNumber :=
  let value := getRawValue formattedNumber
  let isoCode := (getMetadata value countriesList country).map fun c => c.isoCode
  let countryCode := (findPlusRun formattedNumber).map natOfChars
  let areaCode := (findParenRun formattedNumber).map natOfChars
  let lit := ccAreaLit countryCode areaCode
  let capture := (value.drop lit.length).takeWhile Char.isDigit
  let phoneNumber :=
    if startsWith value lit && !capture.isEmpty then some capture else none
  { countryCode := countryCode, areaCode := areaCode,
    phoneNumber := phoneNumber, isoCode := isoCode }

/-- Modelled from the spec: the validation table
(`metadata/validations.json`, not under `src/`) maps an ISO code to a
`[lenientPattern, strictPattern]` pair of regular expressions, and the spec
prescribes full-match semantics ("tests the chosen pattern against the
*entire* concatenation").  Patterns are modelled as `RegularExpression Char`
and tested with `rmatch`, which decides whole-string language membership. -/
abbrev ValidationTable := List (String × RegularExpression Char × RegularExpression Char)

/-- Digit string the validator tests (src line 39):
`[metadata.areaCode, metadata.phoneNumber].filter(Boolean).join("")`.
`Boolean(0)` is `false`, so a zero area code contributes nothing; joining a
number renders it in decimal. -/
def validityConcat (m : PhoneNumber) : List Char :=
  (match m.areaCode with
   | none => []
   | some a => if a = 0 then [] else natRepr a) ++
  (match m.phoneNumber with
   | none => []
   | some s => s)

/-- `checkValidity` (src lines 36-40).  Looking up a missing ISO code throws
in JS (`validations[undefined][...]`), modelled as `none`; otherwise
`Number(strict)` selects index 1 (strict) or 0 (lenient) and the chosen
pattern is tested against the concatenation. -/
def checkValidity (validations : ValidationTable) (metadata : PhoneNumber)
    (strict : Bool) : Option Bool :=
  match metadata.isoCode with
  | none => none
  | some iso =>
    match validations.find? (fun r => r.1 == iso) with
    | none => none
    | some (_, lenientPat, strictPat) =>
      some ((if strict then strictPat else lenientPat).rmatch (validityConcat metadata))

/-- Digit-to-slot rewriting of the active mask (src line 128):
`pattern.replaceAll(/\d/g, ".")`. -/
def replaceDigits (pattern : List Char) : List Char :=
  pattern.map fun c => if c.isDigit then '.' else c

/-- `clean` (src lines 127-129): `cleanInput(input, pattern.replaceAll(/\d/g, "."))`. -/
def clean (input pattern : List Char) : List Char :=
  cleanInput input (replaceDigits pattern)

/-- `first` (src lines 131-133): `[...pattern].findIndex(c => slots.has(c))`,
computed on the raw mask (digits NOT rewritten); `-1` when there is no slot. -/
def first (pattern : List Char) : Int :=
  match pattern.findIdx? isSlot with
  | none => -1
  | some k => (k : Int)

/-- Accumulator loop of `prev` (src lines 135-139):
`Array.from(rewritten, (c, i) => slots.has(c) ? j = i + 1 : j)` with `j`
starting at `0`. -/
def prevAux : Nat → Nat → List Char → List Nat
  | _, _, [] => []
  | j, i, c :: t =>
    let j2 := if isSlot c then i + 1 else j
    j2 :: prevAux j2 (i + 1) t

/-- `prev` (src lines 135-139), computed on the digit-rewritten mask. -/
def prev (pattern : List Char) : List Nat :=
  prevAux 0 0 (replaceDigits pattern)

/-- Caret recomputation applied to one selection offset (src lines 148-151):
`i = clean(target.value.slice(0, i)).findIndex(c => slots.has(c));`
`return i < 0 ? prev[prev.length - 1] : backRef.current ? prev[i - 1] || first : i;`
`prev[-1]` is `undefined` and `undefined || first` is `first`; likewise
`prev[i-1] || first` falls back to `first` when the entry is `0` (falsy).
`prev[prev.length - 1]` on an empty mask is `undefined` (outside every claim);
it is modelled by the `getLastD` default `0`. -/
def caretOffset (pattern : List Char) (back : Bool) (value : List Char)
    (sel : Nat) : Int :=
  match (clean (value.take sel) pattern).findIdx? isSlot with
  | none => ((prev pattern).getLastD 0 : Int)
  | some k =>
    if back then
      if k = 0 then first pattern
      else if (prev pattern).getD (k - 1) 0 = 0 then first pattern
      else ((prev pattern).getD (k - 1) 0 : Int)
    else (k : Int)

/-- New display value installed by `format` (src line 152):
`displayFormat(clean(target.value).join(""))`. -/
def formatValue (pattern value : List Char) : List Char :=
  displayFormat (clean value pattern)

/-- Both caret offsets recomputed by `format` (src lines 148-153): the same
map is applied to `selectionStart` and `selectionEnd`. -/
def trackCaret (pattern : List Char) (back : Bool) (value : List Char)
    (sel : Nat × Nat) : Int × Int :=
  (caretOffset pattern back value sel.1, caretOffset pattern back value sel.2)

/-! ### Basic facts about the slot set and the mask-consuming loop -/

theorem isSlot_iff {c : Char} : isSlot c = true ↔ c = '.' := by
  simp [isSlot, slots, List.contains]

theorem isSlot_dot : isSlot '.' = true := by decide

theorem cleanGo_nil_queue (t : List Char) : cleanGo [] t = t := by
  induction t with
  | nil => rfl
  | cons c t ih => simp [cleanGo, ih]

theorem length_cleanGo (q t : List Char) : (cleanGo q t).length = t.length := by
  induction t generalizing q with
  | nil => cases q <;> rfl
  | cons c t ih =>
    cases q with
    | nil => simpa [cleanGo] using ih []
    | cons d q =>
      by_cases h : (d == c || isSlot c) = true
      · simp [cleanGo, h, ih]
      · simp [cleanGo, h, ih]

theorem length_cleanInput (x t : List Char) : (cleanInput x t).length = t.length :=
  length_cleanGo _ t

/-- Position-wise behaviour of the queue loop: literal positions are copied
from the template, slot positions hold the marker or a queue element. -/
theorem cleanGo_getD (q t : List Char) (i : Nat) (hi : i < t.length) :
    (isSlot (t.getD i ' ') = false → (cleanGo q t).getD i ' ' = t.getD i ' ') ∧
    (isSlot (t.getD i ' ') = true →
      (cleanGo q t).getD i ' ' = t.getD i ' ' ∨ (cleanGo q t).getD i ' ' ∈ q) := by
  induction t generalizing q i with
  | nil => simp at hi
  | cons c t ih =>
    cases q with
    | nil =>
      rw [cleanGo_nil_queue]
      exact ⟨fun _ => rfl, fun _ => Or.inl rfl⟩
    | cons d q =>
      by_cases h : (d == c || isSlot c) = true
      · have hdc : cleanGo (d :: q) (c :: t) = d :: cleanGo q t := by
          simp [cleanGo, h]
        cases i with
        | zero =>
          rcases Bool.or_eq_true_iff.mp h with h1 | h1
          · have : d = c := by simpa using h1
            subst this
            simp [hdc]
          · refine ⟨fun hc => ?_, fun _ => ?_⟩
            · simp [List.getD] at hc
              rw [hc] at h1
              cases h1
            · right
              simp [hdc]
        | succ i =>
          have hi' : i < t.length := by simpa using hi
          have := ih q i hi'
          refine ⟨fun hc => ?_, fun hc => ?_⟩
          · have := this.1 (by simpa using hc)
            simpa [hdc] using this
          · have := this.2 (by simpa using hc)
            rcases this with h2 | h2
            · left; simpa [hdc] using h2
            · right; right; simpa [hdc] using h2
      · have hdc : cleanGo (d :: q) (c :: t) = c :: cleanGo (d :: q) t := by
          simp [cleanGo, h]
        cases i with
        | zero => simp [hdc]
        | succ i =>
          have hi' : i < t.length := by simpa using hi
          have := ih (d :: q) i hi'
          refine ⟨fun hc => ?_, fun hc => ?_⟩
          · have := this.1 (by simpa using hc)
            simpa [hdc] using this
          · have := this.2 (by simpa using hc)
            rcases this with h2 | h2
            · left; simpa [hdc] using h2
            · right; simpa [hdc] using h2

/-! ### Idempotence machinery (digit-free templates) -/

/-- Number of slot positions of a template. -/
def slotCount (t : List Char) : Nat := (t.filter isSlot).length

/-- On a digit-free template fed an all-digit queue, the digits of the output
are exactly the consumed front of the queue. -/
theorem filter_cleanGo (q t : List Char) (hq : ∀ c ∈ q, c.isDigit = true)
    (ht : ∀ c ∈ t, c.isDigit = false) :
    (cleanGo q t).filter Char.isDigit = q.take (slotCount t) := by
  induction t generalizing q with
  | nil => cases q <;> simp [cleanGo, slotCount]
  | cons c t ih =>
    have hc : c.isDigit = false := ht c (List.mem_cons_self c t)
    have ht' : ∀ x ∈ t, x.isDigit = false := fun x hx => ht x (List.mem_cons_of_mem c hx)
    cases q with
    | nil =>
      rw [cleanGo_nil_queue]
      have : (c :: t).filter Char.isDigit = [] := by
        rw [List.filter_eq_nil_iff]
        intro a ha
        simp [ht a ha]
      simp [this, List.take_nil]
    | cons d q =>
      have hd : d.isDigit = true := hq d (List.mem_cons_self d q)
      have hq' : ∀ x ∈ q, x.isDigit = true := fun x hx => hq x (List.mem_cons_of_mem d hx)
      have hne : (d == c) = false := by
        rw [beq_eq_false_iff_ne]
        intro h
        rw [h] at hd
        rw [hd] at hc
        cases hc
      by_cases hs : isSlot c = true
      · have : cleanGo (d :: q) (c :: t) = d :: cleanGo q t := by
          simp [cleanGo, hne, hs]
        rw [this]
        simp only [List.filter_cons, hd, slotCount, List.filter, hs]
        simp [ih q hq' ht', slotCount]
      · have hsF : isSlot c = false := by simpa using hs
        have : cleanGo (d :: q) (c :: t) = c :: cleanGo (d :: q) t := by
          simp [cleanGo, hne, hsF]
        rw [this]
        simp only [List.filter_cons, hc, slotCount, List.filter, hsF]
        exact ih (d :: q) hq ht'

/-- Dropping queue elements beyond the slot capacity does not change the
output on a digit-free template. -/
theorem cleanGo_take (q t : List Char) (hq : ∀ c ∈ q, c.isDigit = true)
    (ht : ∀ c ∈ t, c.isDigit = false) :
    cleanGo (q.take (slotCount t)) t = cleanGo q t := by
  induction t generalizing q with
  | nil => cases q <;> rfl
  | cons c t ih =>
    have hc : c.isDigit = false := ht c (List.mem_cons_self c t)
    have ht' : ∀ x ∈ t, x.isDigit = false := fun x hx => ht x (List.mem_cons_of_mem c hx)
    cases q with
    | nil => simp
    | cons d q =>
      have hd : d.isDigit = true := hq d (List.mem_cons_self d q)
      have hq' : ∀ x ∈ q, x.isDigit = true := fun x hx => hq x (List.mem_cons_of_mem d hx)
      have hne : (d == c) = false := by
        rw [beq_eq_false_iff_ne]
        intro h
        rw [h] at hd
        rw [hd] at hc
        cases hc
      by_cases hs : isSlot c = true
      · have hcap : slotCount (c :: t) = slotCount t + 1 := by
          simp [slotCount, List.filter, hs]
        rw [hcap]
        have h1 : cleanGo (d :: q) (c :: t) = d :: cleanGo q t := by
          simp [cleanGo, hne, hs]
        have h2 : cleanGo (d :: q.take (slotCount t)) (c :: t)
            = d :: cleanGo (q.take (slotCount t)) t := by
          simp [cleanGo, hne, hs]
        simp only [List.take_succ_cons, h1, h2, ih q hq' ht']
      · have hsF : isSlot c = false := by simpa using hs
        have hcap : slotCount (c :: t) = slotCount t := by
          simp [slotCount, List.filter, hsF]
        rw [hcap]
        have hih := ih (d :: q) hq ht'
        cases hsc : slotCount t with
        | zero =>
          rw [hsc] at hih
          simp only [List.take_zero, cleanGo_nil_queue] at hih
          simp only [List.take_zero, cleanGo_nil_queue]
          have h2 : cleanGo (d :: q) (c :: t) = c :: cleanGo (d :: q) t := by
            simp [cleanGo, hne, hsF]
          rw [h2, ← hih]
        | succ n =>
          rw [hsc] at hih
          simp only [List.take_succ_cons] at hih
          simp only [List.take_succ_cons]
          have h1 : cleanGo (d :: q.take n) (c :: t) = c :: cleanGo (d :: q.take n) t := by
            simp [cleanGo, hne, hsF]
          have h2 : cleanGo (d :: q) (c :: t) = c :: cleanGo (d :: q) t := by
            simp [cleanGo, hne, hsF]
          rw [h1, h2, hih]

/-! ### Claim C1: length invariant and position-wise shape of the formatter -/

/-- C1.  For every input string `x` and template `t`, `cleanInput x t` has the
same length as `t`; every literal (non-slot) position holds the template's
character unchanged, and every slot position holds either the slot marker
(the template's character) or a digit dequeued from `x`'s digit queue. -/
theorem claim1_cleanInput_shape (x t : List Char) :
    (cleanInput x t).length = t.length ∧
    ∀ i, i < t.length →
      (isSlot (t.getD i ' ') = false → (cleanInput x t).getD i ' ' = t.getD i ' ') ∧
      (isSlot (t.getD i ' ') = true →
        (cleanInput x t).getD i ' ' = t.getD i ' ' ∨
        (cleanInput x t).getD i ' ' ∈ x.filter Char.isDigit) :=
  ⟨length_cleanInput x t, fun i hi => cleanGo_getD (x.filter Char.isDigit) t i hi⟩

/-- Witness for C1 at `x = "1"`, `t = "+."`: length is preserved and the slot
position 1 received the dequeued digit. -/
theorem claim1_witness :
    (cleanInput "1".data "+.".data).length = "+.".data.length ∧
    ((cleanInput "1".data "+.".data).getD 1 ' ' = "+.".data.getD 1 ' ' ∨
      (cleanInput "1".data "+.".data).getD 1 ' ' ∈ "1".data.filter Char.isDigit) :=
  ⟨(claim1_cleanInput_shape "1".data "+.".data).1,
    ((claim1_cleanInput_shape "1".data "+.".data).2 1 (by decide)).2 (by decide)⟩

/-! ### Claim C2: idempotence of the formatter under digit re-extraction -/

/-- C2, counterexample.  On the template `". 5"`, which contains a literal
digit after a slot, formatting the empty input yields `". 5"`, whose digits
are `"5"`; re-formatting those digits yields `"5 5"`, not `". 5"`.  So the
formatter is not idempotent on templates with literal digit characters. -/
theorem claim2_counterexample :
    cleanInput (getRawValue (cleanInput "".data ". 5".data)) ". 5".data ≠
      cleanInput "".data ". 5".data := by decide

/-- C2 as amended: on templates free of literal digit characters (which is
every template the component ever feeds to `cleanInput` through `clean`,
since `clean` rewrites every digit of the mask to a slot marker first), the
formatter is idempotent under digit re-extraction. -/
theorem claim2_amended_idempotent (x t : List Char)
    (ht : ∀ c ∈ t, c.isDigit = false) :
    cleanInput (getRawValue (cleanInput x t)) t = cleanInput x t := by
  unfold cleanInput getRawValue
  have hq : ∀ c ∈ x.filter Char.isDigit, c.isDigit = true := by
    intro c hc
    exact (List.mem_filter.mp hc).2
  have hff : ∀ l : List Char,
      List.filter Char.isDigit (List.filter Char.isDigit l) = List.filter Char.isDigit l := by
    intro l
    induction l with
    | nil => rfl
    | cons a l ih =>
      by_cases ha : a.isDigit = true
      · simp [List.filter_cons, ha, ih]
      · simp [List.filter_cons, ha, ih]
  rw [hff]
  rw [filter_cleanGo (x.filter Char.isDigit) t hq ht]
  exact cleanGo_take (x.filter Char.isDigit) t hq ht

/-- Witness for the amended C2 at `x = "12"`, `t = "+.-."`. -/
theorem claim2_amended_witness :
    cleanInput (getRawValue (cleanInput "12".data "+.-.".data)) "+.-.".data =
      cleanInput "12".data "+.-.".data :=
  claim2_amended_idempotent "12".data "+.-.".data (by decide)

/-! ### Claim C3: first-match semantics of the country matcher -/

theorem startsWith_iff (v p : List Char) :
    startsWith v p = true ↔ ∃ r, v = p ++ r := by
  induction p generalizing v with
  | nil =>
    cases v <;> simp [startsWith]
  | cons a p ih =>
    cases v with
    | nil => simp [startsWith]
    | cons b v =>
      simp only [startsWith, Bool.and_eq_true, beq_iff_eq, ih, List.cons_append,
        List.cons.injEq]
      constructor
      · rintro ⟨rfl, r, rfl⟩
        exact ⟨r, rfl, rfl⟩
      · rintro ⟨r, rfl, rfl⟩
        exact ⟨rfl, r, rfl⟩

/-- First-match characterization of `List.find?`: the result is a satisfying
element preceded only by failing ones. -/
theorem find?_eq_some_iff_split {α : Type} (p : α → Bool) (l : List α) (x : α) :
    l.find? p = some x ↔
      p x = true ∧ ∃ l1 l2, l = l1 ++ x :: l2 ∧ ∀ y ∈ l1, p y = false := by
  induction l with
  | nil => simp
  | cons a l ih =>
    by_cases ha : p a = true
    · rw [List.find?_cons_of_pos _ ha]
      constructor
      · intro h
        have hax : a = x := by injection h
        subst hax
        exact ⟨ha, [], l, rfl, by simp⟩
      · rintro ⟨hx, l1, l2, heq, hearlier⟩
        cases l1 with
        | nil =>
          simp only [List.nil_append, List.cons.injEq] at heq
          rw [heq.1]
        | cons b l1 =>
          simp only [List.cons_append, List.cons.injEq] at heq
          have := hearlier b (List.mem_cons_self b l1)
          rw [← heq.1] at this
          rw [ha] at this
          cases this
    · have ha' : p a = false := by simpa using ha
      rw [List.find?_cons_of_neg _ (by simp [ha'])]
      rw [ih]
      constructor
      · rintro ⟨hx, l1, l2, heq, hearlier⟩
        refine ⟨hx, a :: l1, l2, by rw [heq]; rfl, ?_⟩
        intro y hy
        rcases List.mem_cons.mp hy with rfl | hy
        · exact ha'
        · exact hearlier y hy
      · rintro ⟨hx, l1, l2, heq, hearlier⟩
        cases l1 with
        | nil =>
          simp only [List.nil_append, List.cons.injEq] at heq
          rw [heq.1] at ha'
          rw [hx] at ha'
          cases ha'
        | cons b l1 =>
          simp only [List.cons_append, List.cons.injEq] at heq
          exact ⟨hx, l1, l2, heq.2, fun y hy => hearlier y (List.mem_cons_of_mem b hy)⟩

/-- The claim's qualification condition, stated propositionally: the
candidate's dial code is a leading piece of the raw digits, and when a pin is
given the candidate's ISO code equals the pin. -/
def countryQualifies (rawValue : List Char) (country : Option String)
    (c : CountryRecord) : Prop :=
  (∃ r, rawValue = c.dialCode ++ r) ∧ (country = none ∨ country = some c.isoCode)

theorem countryMatches_iff_qualifies (raw : List Char) (pin : Option String)
    (c : CountryRecord) :
    countryMatches raw pin c = true ↔ countryQualifies raw pin c := by
  unfold countryMatches countryQualifies
  cases pin with
  | none => simp [startsWith_iff]
  | some iso => simp [startsWith_iff]

/-- Canadian row used by the claim's shared-dial-code scenario. -/
def caRecord : CountryRecord :=
  { isoCode := "ca", displayName := "Canada", decorative := "",
    dialCode := ['1'], maskTemplate := "+1 (...) ...-....".data }

/-- United States row used by the claim's shared-dial-code scenario. -/
def usRecord : CountryRecord :=
  { isoCode := "us", displayName := "United States", decorative := "",
    dialCode := ['1'], maskTemplate := "+1 (...) ...-....".data }

/-- C3.  The country matcher returns the first candidate in list order whose
dial code is a prefix of the raw digits and whose ISO code matches the pin
when one is given; it returns `none` exactly when no candidate qualifies;
and on raw digits "1416" with candidates `[ca, us]` and no pin it picks `ca`. -/
theorem claim3_getMetadata_first :
    (∀ (raw : List Char) (l : List CountryRecord) (pin : Option String)
        (r : CountryRecord),
      getMetadata raw l pin = some r ↔
        countryQualifies raw pin r ∧
        ∃ l1 l2, l = l1 ++ r :: l2 ∧ ∀ c ∈ l1, ¬ countryQualifies raw pin c) ∧
    (∀ (raw : List Char) (l : List CountryRecord) (pin : Option String),
      getMetadata raw l pin = none ↔ ∀ c ∈ l, ¬ countryQualifies raw pin c) ∧
    getMetadata "1416".data [caRecord, usRecord] none = some caRecord := by
  refine ⟨fun raw l pin r => ?_, fun raw l pin => ?_, by decide⟩
  · rw [getMetadata, find?_eq_some_iff_split, countryMatches_iff_qualifies]
    constructor
    · rintro ⟨hq, l1, l2, heq, hearlier⟩
      refine ⟨hq, l1, l2, heq, fun c hc hcq => ?_⟩
      have := hearlier c hc
      rw [(countryMatches_iff_qualifies raw pin c).symm] at hcq
      rw [this] at hcq
      cases hcq
    · rintro ⟨hq, l1, l2, heq, hearlier⟩
      refine ⟨hq, l1, l2, heq, fun c hc => ?_⟩
      have := hearlier c hc
      rw [← countryMatches_iff_qualifies raw pin c] at this
      cases hcm : countryMatches raw pin c with
      | false => rfl
      | true => exact absurd hcm this
  · rw [getMetadata, List.find?_eq_none]
    constructor
    · intro h c hc hcq
      have := h c hc
      rw [countryMatches_iff_qualifies] at this
      exact this hcq
    · intro h c hc
      rw [countryMatches_iff_qualifies]
      exact h c hc

/-! ### Claim C7: validator error behaviour (missing-rule detection) -/

/-- C7.  The validator signals the error (modelled `none`) exactly when the
ISO code is absent or no row of the validation table carries it, and returns
a boolean (`some`) whenever the ISO code is present and some row carries it.
The table itself is external data and enters as a parameter. -/
theorem claim7_validator_totality :
    ∀ (tbl : ValidationTable) (meta : PhoneNumber) (strict : Bool),
      (checkValidity tbl meta strict = none ↔
        meta.isoCode = none ∨
        ∀ iso, meta.isoCode = some iso → ∀ r ∈ tbl, r.1 ≠ iso) ∧
      (∀ iso, meta.isoCode = some iso → (∃ r ∈ tbl, r.1 = iso) →
        ∃ b, checkValidity tbl meta strict = some b) := by
  intro tbl meta strict
  cases hiso : meta.isoCode with
  | none =>
    constructor
    · constructor
      · intro _
        exact Or.inl rfl
      · intro _
        simp [checkValidity, hiso]
    · intro iso h
      cases h
  | some iso =>
    cases hf : tbl.find? (fun r => r.1 == iso) with
    | none =>
      have hnone : checkValidity tbl meta strict = none := by
        simp [checkValidity, hiso, hf]
      have hfn := List.find?_eq_none.mp hf
      constructor
      · rw [hnone]
        constructor
        · intro _
          right
          intro iso2 h2 r hr
          have h2' : iso = iso2 := by injection h2
          rw [← h2']
          intro hre
          have := hfn r hr
          rw [hre] at this
          simp at this
        · intro _
          rfl
      · intro iso2 h2 hex
        exfalso
        have h2' : iso = iso2 := by injection h2
        rcases hex with ⟨r, hr, hkey⟩
        have := hfn r hr
        rw [hkey, ← h2'] at this
        simp at this
    | some row =>
      obtain ⟨key, p1, p2⟩ := row
      have hsome : checkValidity tbl meta strict =
          some ((if strict then p2 else p1).rmatch (validityConcat meta)) := by
        simp [checkValidity, hiso, hf]
      constructor
      · rw [hsome]
        constructor
        · intro h
          cases h
        · rintro (h | h)
          · cases h
          · exfalso
            have hmem := List.mem_of_find?_eq_some hf
            have hkey := List.find?_some hf
            simp only [beq_iff_eq] at hkey
            exact h iso rfl (key, p1, p2) hmem hkey
      · intro _ _ _
        exact ⟨_, hsome⟩

/-- Witness for C7: a one-row table for "us" yields a boolean. -/
theorem claim7_witness :
    ∃ b, checkValidity [("us", (1 : RegularExpression Char), (1 : RegularExpression Char))]
      { countryCode := some 1, areaCode := none, phoneNumber := none,
        isoCode := some "us" } false = some b :=
  (claim7_validator_totality _ _ false).2 "us" rfl
    ⟨("us", 1, 1), by simp, rfl⟩

/-! ### Decimal rendering and parsing of naturals -/

theorem digitsFuel_eq (fuel n : Nat) (h : n ≤ fuel) :
    digitsFuel fuel n = Nat.digits 10 n := by
  induction fuel generalizing n with
  | zero =>
    have : n = 0 := Nat.le_zero.mp h
    subst this
    simp [digitsFuel]
  | succ fuel ih =>
    by_cases hn : n = 0
    · subst hn
      simp [digitsFuel]
    · rw [digitsFuel, if_neg hn]
      have hlt : n / 10 ≤ fuel := by
        have h1 : n / 10 < n := Nat.div_lt_self (Nat.pos_of_ne_zero hn) (by norm_num)
        omega
      rw [ih (n / 10) hlt]
      rw [Nat.digits_def' (by norm_num : (1 : ℕ) < 10) (Nat.pos_of_ne_zero hn)]

theorem natDigits_eq (n : Nat) : natDigits n = Nat.digits 10 n :=
  digitsFuel_eq n n le_rfl

theorem digitChar_toNat {d : Nat} (h : d < 10) : (digitChar d).toNat = 48 + d := by
  interval_cases d <;> decide

theorem digitChar_isDigit {d : Nat} (h : d < 10) : (digitChar d).isDigit = true := by
  interval_cases d <;> decide

theorem foldl_digitChar (l : List Nat) (a : Nat) (h : ∀ d ∈ l, d < 10) :
    List.foldl (fun acc c => 10 * acc + (c.toNat - 48)) a (l.map digitChar) =
    List.foldl (fun acc d => 10 * acc + d) a l := by
  induction l generalizing a with
  | nil => rfl
  | cons d l ih =>
    simp only [List.map_cons, List.foldl_cons]
    rw [digitChar_toNat (h d (List.mem_cons_self d l))]
    have h48 : 48 + d - 48 = d := by omega
    rw [h48]
    exact ih _ fun x hx => h x (List.mem_cons_of_mem _ hx)

theorem foldl_msd (l : List Nat) (a : Nat) :
    List.foldl (fun acc d => 10 * acc + d) a l =
    a * 10 ^ l.length + Nat.ofDigits 10 l.reverse := by
  induction l generalizing a with
  | nil => simp
  | cons d l ih =>
    simp only [List.foldl_cons, List.reverse_cons, List.length_cons]
    rw [ih, Nat.ofDigits_append]
    simp only [Nat.ofDigits_singleton, List.length_reverse]
    ring

theorem natOfChars_natRepr (n : Nat) : natOfChars (natRepr n) = n := by
  by_cases h : n = 0
  · subst h
    decide
  · unfold natRepr natOfChars
    rw [if_neg h]
    rw [← List.map_reverse]
    rw [foldl_digitChar _ _ ?hd, foldl_msd]
    case hd =>
      intro d hd
      rw [List.mem_reverse, natDigits_eq] at hd
      exact Nat.digits_lt_base (by norm_num) hd
    simp [natDigits_eq, Nat.ofDigits_digits]

theorem natRepr_ne_nil (n : Nat) : natRepr n ≠ [] := by
  unfold natRepr
  by_cases h : n = 0
  · simp [h]
  · rw [if_neg h]
    simp only [ne_eq, List.reverse_eq_nil_iff, List.map_eq_nil_iff, natDigits_eq]
    exact Nat.digits_ne_nil_iff_ne_zero.mpr h

theorem natRepr_all_digits (n : Nat) : ∀ c ∈ natRepr n, c.isDigit = true := by
  unfold natRepr
  by_cases h : n = 0
  · simp only [h, if_pos]
    intro c hc
    rw [List.mem_singleton] at hc
    subst hc
    decide
  · rw [if_neg h]
    intro c hc
    rw [List.mem_reverse] at hc
    obtain ⟨d, hd, rfl⟩ := List.mem_map.mp hc
    rw [natDigits_eq] at hd
    exact digitChar_isDigit (Nat.digits_lt_base (by norm_num) hd)

/-! ### Claim C6: pattern selection, concatenation and full-match semantics -/

/-- Regular expression matching exactly one literal string. -/
def litRegex : List Char → RegularExpression Char
  | [] => 1
  | c :: t => RegularExpression.char c * litRegex t

/-- C6, counterexample.  For a phone number with area code `0` (present!) and
subscriber number "5551234", the claim says the tested digit string is
"05551234"; a table whose lenient pattern accepts exactly "05551234" should
then report valid.  But `filter(Boolean)` drops the falsy `0`, the code tests
"5551234", and reports invalid. -/
theorem claim6_counterexample :
    checkValidity [("us", litRegex "05551234".data, litRegex "05551234".data)]
      { countryCode := some 1, areaCode := some 0,
        phoneNumber := some "5551234".data, isoCode := some "us" } false =
      some false ∧
    (litRegex "05551234".data).rmatch (natRepr 0 ++ "5551234".data) = true := by
  constructor
  · decide
  · decide

/-- C6 as amended: with the ISO code present and carrying a table row, the
validator selects the strict pattern when `strict` and the lenient one
otherwise, and tests it with whole-string (full-match) semantics against the
concatenation of the area code — when present AND nonzero (JS `Boolean(0)` is
false) — and the subscriber number when present. -/
theorem claim6_amended_validator (tbl : ValidationTable) (meta : PhoneNumber)
    (strict : Bool) (iso key : String)
    (lenientPat strictPat : RegularExpression Char)
    (hiso : meta.isoCode = some iso)
    (hf : tbl.find? (fun r => r.1 == iso) = some (key, lenientPat, strictPat)) :
    checkValidity tbl meta strict =
      some ((if strict then strictPat else lenientPat).rmatch (validityConcat meta)) ∧
    (checkValidity tbl meta strict = some true ↔
      validityConcat meta ∈ (if strict then strictPat else lenientPat).matches') := by
  have h1 : checkValidity tbl meta strict =
      some ((if strict then strictPat else lenientPat).rmatch (validityConcat meta)) := by
    simp [checkValidity, hiso, hf]
  refine ⟨h1, ?_⟩
  rw [h1]
  constructor
  · intro h
    have h2 : (if strict then strictPat else lenientPat).rmatch (validityConcat meta) = true := by
      injection h
    exact (RegularExpression.rmatch_iff_matches' _ _).mp h2
  · intro h
    rw [(RegularExpression.rmatch_iff_matches' _ _).mpr h]

/-- Witness for the amended C6: a one-row table for "us" whose lenient
pattern is the literal "5551234"; the phone number has no area code and
subscriber "5551234", and validation returns exactly the lenient test. -/
theorem claim6_amended_witness :
    checkValidity [("us", litRegex "5551234".data, (0 : RegularExpression Char))]
      { countryCode := some 1, areaCode := none,
        phoneNumber := some "5551234".data, isoCode := some "us" } false =
      some ((litRegex "5551234".data).rmatch
        (validityConcat
          { countryCode := some 1, areaCode := none,
            phoneNumber := some "5551234".data, isoCode := some "us" })) :=
  (claim6_amended_validator
    [("us", litRegex "5551234".data, (0 : RegularExpression Char))]
    { countryCode := some 1, areaCode := none,
      phoneNumber := some "5551234".data, isoCode := some "us" }
    false "us" "us" (litRegex "5551234".data) 0 rfl rfl).1

/-! ### takeWhile / dropWhile helpers for the regex-scan proofs -/

theorem mem_takeWhile_sat {p : Char → Bool} {l : List Char} {x : Char}
    (h : x ∈ l.takeWhile p) : p x = true := by
  induction l with
  | nil => simp [List.takeWhile] at h
  | cons a l ih =>
    by_cases hp : p a = true
    · rw [List.takeWhile_cons, if_pos hp] at h
      rcases List.mem_cons.mp h with rfl | h2
      · exact hp
      · exact ih h2
    · rw [List.takeWhile_cons, if_neg hp] at h
      cases h

theorem head?_dropWhile_not {p : Char → Bool} {l : List Char} {x : Char}
    (h : (l.dropWhile p).head? = some x) : p x = false := by
  induction l with
  | nil => simp [List.dropWhile] at h
  | cons a l ih =>
    by_cases hp : p a = true
    · rw [List.dropWhile_cons_of_pos hp] at h
      exact ih h
    · rw [List.dropWhile_cons_of_neg hp] at h
      simp only [List.head?_cons, Option.some.injEq] at h
      subst h
      simpa using hp

theorem takeWhile_append_sat {p : Char → Bool} {r rest : List Char}
    (hr : ∀ c ∈ r, p c = true) (hrest : ∀ d, rest.head? = some d → p d = false) :
    (r ++ rest).takeWhile p = r := by
  induction r with
  | nil =>
    cases rest with
    | nil => rfl
    | cons d rest2 =>
      have := hrest d rfl
      simp [List.takeWhile_cons, this]
  | cons a r ih =>
    have hpa := hr a (List.mem_cons_self a r)
    simp only [List.cons_append, List.takeWhile_cons, if_pos hpa, List.cons.injEq,
      true_and]
    exact ih fun c hc => hr c (List.mem_cons_of_mem _ hc)

theorem takeWhile_eq_self_of_sat {p : Char → Bool} {l : List Char}
    (h : ∀ c ∈ l, p c = true) : l.takeWhile p = l := by
  have := @takeWhile_append_sat p l [] h (by intro d hd; cases hd)
  simpa using this

theorem dropWhile_eq_drop_takeWhile {p : Char → Bool} (l : List Char) :
    l.dropWhile p = l.drop (l.takeWhile p).length := by
  induction l with
  | nil => rfl
  | cons a l ih =>
    by_cases hp : p a = true
    · rw [List.dropWhile_cons_of_pos hp, List.takeWhile_cons, if_pos hp]
      simpa using ih
    · rw [List.dropWhile_cons_of_neg hp, List.takeWhile_cons, if_neg hp]
      simp

/-! ### Declarative semantics of the two parser regexes -/

/-- A match of `/\+\d+/` at position `i` of `v` with matched digit run `r`:
`v` carries `+` at `i`, then the nonempty all-digit run `r`, and `r` is
maximal (the next character, if any, is not a digit). -/
def plusRunAt (v : List Char) (i : Nat) (r : List Char) : Prop :=
  r ≠ [] ∧ (∀ c ∈ r, c.isDigit = true) ∧
  ∃ rest, v.drop i = '+' :: (r ++ rest) ∧ ∀ d, rest.head? = some d → d.isDigit = false

/-- A match of `/\((\d+)\)/` at position `i` of `v` with capture `r`:
`v` carries `(` at `i`, then the nonempty all-digit run `r`, then `)`.
Since `)` is not a digit, `r` is automatically the maximal digit run. -/
def parenRunAt (v : List Char) (i : Nat) (r : List Char) : Prop :=
  r ≠ [] ∧ (∀ c ∈ r, c.isDigit = true) ∧
  ∃ rest, v.drop i = '(' :: (r ++ ')' :: rest)

theorem plusRunAt_succ (c : Char) (v : List Char) (i : Nat) (r : List Char) :
    plusRunAt (c :: v) (i + 1) r ↔ plusRunAt v i r := by
  unfold plusRunAt
  rw [List.drop_succ_cons]

theorem parenRunAt_succ (c : Char) (v : List Char) (i : Nat) (r : List Char) :
    parenRunAt (c :: v) (i + 1) r ↔ parenRunAt v i r := by
  unfold parenRunAt
  rw [List.drop_succ_cons]

/-- Transfer of leftmost-match existence across a head character at which no
match starts. -/
theorem exists_min_shift {P Q : Nat → List Char → Prop}
    (hshift : ∀ i r, P (i + 1) r ↔ Q i r) (h0 : ∀ s, ¬ P 0 s) (r : List Char) :
    (∃ i, Q i r ∧ ∀ j s, Q j s → i ≤ j) ↔
    (∃ i, P i r ∧ ∀ j s, P j s → i ≤ j) := by
  constructor
  · rintro ⟨i, hm, hmin⟩
    refine ⟨i + 1, (hshift i r).mpr hm, ?_⟩
    intro j s hj
    cases j with
    | zero => exact absurd hj (h0 s)
    | succ j => exact Nat.succ_le_succ (hmin j s ((hshift j s).mp hj))
  · rintro ⟨i, hm, hmin⟩
    cases i with
    | zero => exact absurd hm (h0 r)
    | succ i =>
      refine ⟨i, (hshift i r).mp hm, ?_⟩
      intro j s hj
      exact Nat.le_of_succ_le_succ (hmin (j + 1) s ((hshift j s).mpr hj))

theorem exists_least {P : Nat → Prop} (h : ∃ n, P n) :
    ∃ n, P n ∧ ∀ m, P m → n ≤ m := by
  classical
  exact ⟨Nat.find h, Nat.find_spec h, fun m hm => Nat.find_le hm⟩

theorem plusRunAt_nil (i : Nat) (r : List Char) : ¬ plusRunAt [] i r := by
  rintro ⟨_, _, rest, habs, _⟩
  rw [List.drop_nil] at habs
  cases habs

theorem parenRunAt_nil (i : Nat) (r : List Char) : ¬ parenRunAt [] i r := by
  rintro ⟨_, _, rest, habs⟩
  rw [List.drop_nil] at habs
  cases habs

theorem findPlusRun_eq_some_iff (v r : List Char) :
    findPlusRun v = some r ↔
      ∃ i, plusRunAt v i r ∧ ∀ j s, plusRunAt v j s → i ≤ j := by
  induction v with
  | nil =>
    simp only [findPlusRun, reduceCtorEq, false_iff]
    rintro ⟨i, hm, _⟩
    exact plusRunAt_nil i r hm
  | cons c v ih =>
    by_cases hc : c = '+'
    · subst hc
      by_cases hrun : (v.takeWhile Char.isDigit).isEmpty = true
      · have hstep : findPlusRun ('+' :: v) = findPlusRun v := by
          simp [findPlusRun, hrun]
        have h0 : ∀ s, ¬ plusRunAt ('+' :: v) 0 s := by
          rintro s ⟨hne, hdig, rest, heq, _⟩
          rw [List.drop_zero] at heq
          cases s with
          | nil => exact hne rfl
          | cons x s2 =>
            have hx : x.isDigit = true := hdig x (List.mem_cons_self x s2)
            have hv : v = x :: (s2 ++ rest) := by
              have h2 := congrArg List.tail heq
              simpa using h2
            rw [hv, List.takeWhile_cons, if_pos hx] at hrun
            simp at hrun
        rw [hstep, ih]
        exact exists_min_shift (plusRunAt_succ '+' v) h0 r
      · have hne : v.takeWhile Char.isDigit ≠ [] := by
          simpa [List.isEmpty_iff] using hrun
        have hstep : findPlusRun ('+' :: v) = some (v.takeWhile Char.isDigit) := by
          simp [findPlusRun, hrun]
        rw [hstep]
        have h0run : plusRunAt ('+' :: v) 0 (v.takeWhile Char.isDigit) := by
          refine ⟨hne, fun c hc => mem_takeWhile_sat hc, v.dropWhile Char.isDigit, ?_, ?_⟩
          · rw [List.drop_zero, List.takeWhile_append_dropWhile]
          · intro d hd
            exact head?_dropWhile_not hd
        constructor
        · intro h
          have hr : r = v.takeWhile Char.isDigit := by
            injection h with h2
            exact h2.symm
          subst hr
          exact ⟨0, h0run, fun j s _ => Nat.zero_le j⟩
        · rintro ⟨i, hm, hmin⟩
          have hi0 : i = 0 := Nat.le_zero.mp (hmin 0 _ h0run)
          subst hi0
          rcases hm with ⟨hne2, hdig2, rest, heq, hrest⟩
          rw [List.drop_zero] at heq
          have hv : v = r ++ rest := by
            have h2 := congrArg List.tail heq
            simpa using h2
          rw [hv, takeWhile_append_sat hdig2 hrest]
    · have hcb : (c == '+') = false := by
        simpa using hc
      have hstep : findPlusRun (c :: v) = findPlusRun v := by
        simp [findPlusRun, hcb]
      have h0 : ∀ s, ¬ plusRunAt (c :: v) 0 s := by
        rintro s ⟨_, _, rest, heq, _⟩
        rw [List.drop_zero] at heq
        have h1 := congrArg List.head? heq
        simp only [List.head?_cons, Option.some.injEq] at h1
        exact hc h1
      rw [hstep, ih]
      exact exists_min_shift (plusRunAt_succ c v) h0 r

theorem findPlusRun_eq_none_iff (v : List Char) :
    findPlusRun v = none ↔ ∀ i r, ¬ plusRunAt v i r := by
  constructor
  · intro h i r hm
    have hex : ∃ n, ∃ s, plusRunAt v n s := ⟨i, r, hm⟩
    obtain ⟨n, ⟨s, hs⟩, hleast⟩ := exists_least hex
    have : findPlusRun v = some s := by
      rw [findPlusRun_eq_some_iff]
      exact ⟨n, hs, fun j s2 hj => hleast j ⟨s2, hj⟩⟩
    rw [h] at this
    cases this
  · intro h
    cases hf : findPlusRun v with
    | none => rfl
    | some s =>
      rw [findPlusRun_eq_some_iff] at hf
      obtain ⟨i, hm, _⟩ := hf
      exact absurd hm (h i s)

theorem findParenRun_eq_some_iff (v r : List Char) :
    findParenRun v = some r ↔
      ∃ i, parenRunAt v i r ∧ ∀ j s, parenRunAt v j s → i ≤ j := by
  induction v with
  | nil =>
    simp only [findParenRun, reduceCtorEq, false_iff]
    rintro ⟨i, hm, _⟩
    exact parenRunAt_nil i r hm
  | cons c v ih =>
    by_cases hc : c = '('
    · subst hc
      by_cases hcond : (!(v.takeWhile Char.isDigit).isEmpty &&
          ((v.drop (v.takeWhile Char.isDigit).length).head? == some ')')) = true
      · have hstep : findParenRun ('(' :: v) = some (v.takeWhile Char.isDigit) := by
          simp only [findParenRun, beq_self_eq_true, if_true]
          rw [if_pos hcond]
        rw [hstep]
        rcases Bool.and_eq_true_iff.mp hcond with ⟨hne0, hcl0⟩
        have hne : v.takeWhile Char.isDigit ≠ [] := by
          simpa [List.isEmpty_iff] using hne0
        have hcl : (v.drop (v.takeWhile Char.isDigit).length).head? = some ')' := by
          simpa using hcl0
        have hsplit : v = v.takeWhile Char.isDigit ++
            ')' :: (v.drop (v.takeWhile Char.isDigit).length).tail := by
          conv_lhs => rw [← @List.takeWhile_append_dropWhile _ Char.isDigit v]
          rw [dropWhile_eq_drop_takeWhile]
          cases hd : v.drop (v.takeWhile Char.isDigit).length with
          | nil => rw [hd] at hcl; cases hcl
          | cons x t =>
            rw [hd] at hcl
            simp only [List.head?_cons, Option.some.injEq] at hcl
            subst hcl
            rfl
        have h0run : parenRunAt ('(' :: v) 0 (v.takeWhile Char.isDigit) := by
          refine ⟨hne, fun c hc => mem_takeWhile_sat hc,
            (v.drop (v.takeWhile Char.isDigit).length).tail, ?_⟩
          rw [List.drop_zero]
          conv_lhs => rw [hsplit]
        constructor
        · intro h
          have hr : r = v.takeWhile Char.isDigit := by
            injection h with h2
            exact h2.symm
          subst hr
          exact ⟨0, h0run, fun j s _ => Nat.zero_le j⟩
        · rintro ⟨i, hm, hmin⟩
          have hi0 : i = 0 := Nat.le_zero.mp (hmin 0 _ h0run)
          subst hi0
          rcases hm with ⟨hne2, hdig2, rest, heq⟩
          rw [List.drop_zero] at heq
          have hv : v = r ++ ')' :: rest := by
            have h2 := congrArg List.tail heq
            simpa using h2
          have htw : v.takeWhile Char.isDigit = r := by
            rw [hv]
            exact takeWhile_append_sat hdig2 (by
              intro d hd
              simp only [List.head?_cons, Option.some.injEq] at hd
              subst hd
              decide)
          rw [htw]
      · have hstep : findParenRun ('(' :: v) = findParenRun v := by
          simp only [findParenRun, beq_self_eq_true, if_true]
          rw [if_neg hcond]
        have h0 : ∀ s, ¬ parenRunAt ('(' :: v) 0 s := by
          rintro s ⟨hne, hdig, rest, heq⟩
          rw [List.drop_zero] at heq
          have hv : v = s ++ ')' :: rest := by
            have h2 := congrArg List.tail heq
            simpa using h2
          have htw : v.takeWhile Char.isDigit = s := by
            rw [hv]
            exact takeWhile_append_sat hdig (by
              intro d hd
              simp only [List.head?_cons, Option.some.injEq] at hd
              subst hd
              decide)
          apply hcond
          rw [htw]
          have hdr : v.drop s.length = ')' :: rest := by
            rw [hv]
            exact List.drop_left s (')' :: rest)
          rw [hdr]
          rw [Bool.and_eq_true_iff]
          constructor
          · simpa [List.isEmpty_iff] using hne
          · simp
        rw [hstep, ih]
        exact exists_min_shift (parenRunAt_succ '(' v) h0 r
    · have hcb : (c == '(') = false := by
        simpa using hc
      have hstep : findParenRun (c :: v) = findParenRun v := by
        simp [findParenRun, hcb]
      have h0 : ∀ s, ¬ parenRunAt (c :: v) 0 s := by
        rintro s ⟨_, _, rest, heq⟩
        rw [List.drop_zero] at heq
        have h1 := congrArg List.head? heq
        simp only [List.head?_cons, Option.some.injEq] at h1
        exact hc h1
      rw [hstep, ih]
      exact exists_min_shift (parenRunAt_succ c v) h0 r

theorem findParenRun_eq_none_iff (v : List Char) :
    findParenRun v = none ↔ ∀ i r, ¬ parenRunAt v i r := by
  constructor
  · intro h i r hm
    have hex : ∃ n, ∃ s, parenRunAt v n s := ⟨i, r, hm⟩
    obtain ⟨n, ⟨s, hs⟩, hleast⟩ := exists_least hex
    have : findParenRun v = some s := by
      rw [findParenRun_eq_some_iff]
      exact ⟨n, hs, fun j s2 hj => hleast j ⟨s2, hj⟩⟩
    rw [h] at this
    cases this
  · intro h
    cases hf : findParenRun v with
    | none => rfl
    | some s =>
      rw [findParenRun_eq_some_iff] at hf
      obtain ⟨i, hm, _⟩ := hf
      exact absurd hm (h i s)

/-! ### Field equations of the parser -/

theorem parsePhoneNumber_countryCode (f : List Char) (l : List CountryRecord)
    (pin : Option String) :
    (parsePhoneNumber f l pin).countryCode = (findPlusRun f).map natOfChars := rfl

theorem parsePhoneNumber_areaCode (f : List Char) (l : List CountryRecord)
    (pin : Option String) :
    (parsePhoneNumber f l pin).areaCode = (findParenRun f).map natOfChars := rfl

theorem parsePhoneNumber_phoneNumber (f : List Char) (l : List CountryRecord)
    (pin : Option String) :
    (parsePhoneNumber f l pin).phoneNumber =
      (if startsWith (getRawValue f)
            (ccAreaLit ((findPlusRun f).map natOfChars) ((findParenRun f).map natOfChars)) &&
          !(((getRawValue f).drop
              (ccAreaLit ((findPlusRun f).map natOfChars)
                ((findParenRun f).map natOfChars)).length).takeWhile Char.isDigit).isEmpty
        then some (((getRawValue f).drop
              (ccAreaLit ((findPlusRun f).map natOfChars)
                ((findParenRun f).map natOfChars)).length).takeWhile Char.isDigit)
        else none) := rfl

theorem getRawValue_all_digits (f : List Char) :
    ∀ c ∈ getRawValue f, c.isDigit = true := by
  intro c hc
  exact (List.mem_filter.mp hc).2

theorem startsWith_null_false (value rest2 : List Char)
    (hv : ∀ c ∈ value, c.isDigit = true) :
    startsWith value ('n' :: rest2) = false := by
  cases value with
  | nil => rfl
  | cons b v2 =>
    have hb := hv b (List.mem_cons_self b v2)
    have hnb : ('n' == b) = false := by
      rw [beq_eq_false_iff_ne]
      intro he
      rw [← he] at hb
      exact absurd hb (by decide)
    simp only [startsWith, hnb, Bool.false_and]

/-! ### Claim C4: parser field extraction -/

/-- Follows the claim's words for C4: a LEADING `+<digits>` run is one that
starts at position 0 of the formatted value. -/
def leadingPlusRun (v : List Char) : Option (List Char) :=
  match v with
  | '+' :: rest =>
    let run := rest.takeWhile Char.isDigit
    if run.isEmpty then none else some run
  | _ => none

/-- C4, counterexample.  The formatted value "a+12" has no leading
`+<digits>` run, so the claim says the parsed country code is absent; but the
source regex `/\+\d+/` is unanchored and matches the run at position 1, so
the code parses country code 12. -/
theorem claim4_counterexample :
    leadingPlusRun "a+12".data = none ∧
    (parsePhoneNumber "a+12".data [] none).countryCode = some 12 := by
  constructor
  · decide
  · decide

/-- C4 as amended: the country code is the integer value of the leftmost
(not necessarily leading) `+<digits>` run anywhere in the formatted value;
the area code is the integer value of the leftmost parenthesized digit run;
and the subscriber number is the nonempty digit remainder of the raw digits
after the literal prefix built from the DECIMAL RENDERINGS of the parsed
country code (the text "null" when absent) and of the parsed area code (empty
when absent or zero). -/
theorem claim4_amended_fields (f : List Char) (l : List CountryRecord)
    (pin : Option String) :
    (∀ n, (parsePhoneNumber f l pin).countryCode = some n ↔
      ∃ i r, (plusRunAt f i r ∧ ∀ j s, plusRunAt f j s → i ≤ j) ∧ n = natOfChars r) ∧
    ((parsePhoneNumber f l pin).countryCode = none ↔ ∀ i r, ¬ plusRunAt f i r) ∧
    (∀ a, (parsePhoneNumber f l pin).areaCode = some a ↔
      ∃ i r, (parenRunAt f i r ∧ ∀ j s, parenRunAt f j s → i ≤ j) ∧ a = natOfChars r) ∧
    ((parsePhoneNumber f l pin).areaCode = none ↔ ∀ i r, ¬ parenRunAt f i r) ∧
    (∀ s, (parsePhoneNumber f l pin).phoneNumber = some s ↔
      s ≠ [] ∧ getRawValue f =
        ccAreaLit (parsePhoneNumber f l pin).countryCode
          (parsePhoneNumber f l pin).areaCode ++ s) := by
  refine ⟨fun n => ?_, ?_, fun a => ?_, ?_, fun s => ?_⟩
  · rw [parsePhoneNumber_countryCode]
    rw [Option.map_eq_some']
    constructor
    · rintro ⟨r, hr, rfl⟩
      rw [findPlusRun_eq_some_iff] at hr
      obtain ⟨i, hm, hmin⟩ := hr
      exact ⟨i, r, ⟨hm, hmin⟩, rfl⟩
    · rintro ⟨i, r, ⟨hm, hmin⟩, rfl⟩
      refine ⟨r, ?_, rfl⟩
      rw [findPlusRun_eq_some_iff]
      exact ⟨i, hm, hmin⟩
  · rw [parsePhoneNumber_countryCode]
    rw [Option.map_eq_none']
    exact findPlusRun_eq_none_iff f
  · rw [parsePhoneNumber_areaCode]
    rw [Option.map_eq_some']
    constructor
    · rintro ⟨r, hr, rfl⟩
      rw [findParenRun_eq_some_iff] at hr
      obtain ⟨i, hm, hmin⟩ := hr
      exact ⟨i, r, ⟨hm, hmin⟩, rfl⟩
    · rintro ⟨i, r, ⟨hm, hmin⟩, rfl⟩
      refine ⟨r, ?_, rfl⟩
      rw [findParenRun_eq_some_iff]
      exact ⟨i, hm, hmin⟩
  · rw [parsePhoneNumber_areaCode]
    rw [Option.map_eq_none']
    exact findParenRun_eq_none_iff f
  · rw [parsePhoneNumber_phoneNumber, parsePhoneNumber_countryCode,
      parsePhoneNumber_areaCode]
    constructor
    · intro h
      by_cases hcond : (startsWith (getRawValue f)
          (ccAreaLit ((findPlusRun f).map natOfChars) ((findParenRun f).map natOfChars)) &&
          !(((getRawValue f).drop
              (ccAreaLit ((findPlusRun f).map natOfChars)
                ((findParenRun f).map natOfChars)).length).takeWhile Char.isDigit).isEmpty) = true
      · rw [if_pos hcond] at h
        rcases Bool.and_eq_true_iff.mp hcond with ⟨hsw, hcne⟩
        obtain ⟨rr, hrr⟩ := (startsWith_iff _ _).mp hsw
        have hdrop : (getRawValue f).drop
            (ccAreaLit ((findPlusRun f).map natOfChars)
              ((findParenRun f).map natOfChars)).length = rr := by
          rw [hrr]
          exact List.drop_left _ _
        have hrrdig : ∀ c ∈ rr, c.isDigit = true := by
          intro c hc
          exact getRawValue_all_digits f c (by rw [hrr]; exact List.mem_append_right _ hc)
        have hcap : ((getRawValue f).drop
            (ccAreaLit ((findPlusRun f).map natOfChars)
              ((findParenRun f).map natOfChars)).length).takeWhile Char.isDigit = rr := by
          rw [hdrop]
          exact takeWhile_eq_self_of_sat hrrdig
        rw [hcap] at h hcne
        have hs : rr = s := by
          injection h
        subst hs
        refine ⟨by simpa [List.isEmpty_iff] using hcne, hrr⟩
      · rw [if_neg hcond] at h
        cases h
    · rintro ⟨hne, heq⟩
      have hsw : startsWith (getRawValue f)
          (ccAreaLit ((findPlusRun f).map natOfChars)
            ((findParenRun f).map natOfChars)) = true :=
        (startsWith_iff _ _).mpr ⟨s, heq⟩
      have hdrop : (getRawValue f).drop
          (ccAreaLit ((findPlusRun f).map natOfChars)
            ((findParenRun f).map natOfChars)).length = s := by
        rw [heq]
        exact List.drop_left _ _
      have hsdig : ∀ c ∈ s, c.isDigit = true := by
        intro c hc
        exact getRawValue_all_digits f c (by rw [heq]; exact List.mem_append_right _ hc)
      have hcap : ((getRawValue f).drop
          (ccAreaLit ((findPlusRun f).map natOfChars)
            ((findParenRun f).map natOfChars)).length).takeWhile Char.isDigit = s := by
        rw [hdrop]
        exact takeWhile_eq_self_of_sat hsdig
      rw [hcap]
      have hcne : (!s.isEmpty) = true := by
        simpa [List.isEmpty_iff] using hne
      rw [hsw, hcne]
      rfl

/-! ### Claim C10: absent country code poisons the subscriber pattern -/

/-- C10.  When the formatted value contains no `+<digits>` run anywhere, the
parsed country code is `null` and the subscriber pattern embeds it as the
literal text "null"; since the raw value consists of digits only, the
pattern can never match, so the subscriber number is absent even when the raw
digit string is nonempty. -/
theorem claim10_null_pattern (f : List Char) (l : List CountryRecord)
    (pin : Option String) (h : ∀ i r, ¬ plusRunAt f i r) :
    (parsePhoneNumber f l pin).countryCode = none ∧
    (parsePhoneNumber f l pin).phoneNumber = none := by
  have hnone : findPlusRun f = none := (findPlusRun_eq_none_iff f).mpr h
  constructor
  · rw [parsePhoneNumber_countryCode, hnone]
    rfl
  · rw [parsePhoneNumber_phoneNumber, hnone]
    have hlit : ∃ rest2, ccAreaLit (Option.map natOfChars none)
        ((findParenRun f).map natOfChars) = 'n' :: rest2 :=
      ⟨_, rfl⟩
    obtain ⟨rest2, hrest2⟩ := hlit
    rw [hrest2]
    rw [startsWith_null_false _ _ (getRawValue_all_digits f)]
    rfl

/-- Witness for C10 at the formatted value "abc123": no `+<digits>` run, the
raw digit string "123" is nonempty, and the subscriber number is absent. -/
theorem claim10_witness :
    (parsePhoneNumber "abc123".data [] none).phoneNumber = none ∧
    getRawValue "abc123".data ≠ [] :=
  ⟨(claim10_null_pattern "abc123".data [] none
      ((findPlusRun_eq_none_iff "abc123".data).mp (by decide))).2,
    by decide⟩

/-! ### Structure of the prev-slot table and caret bounds -/

theorem length_replaceDigits (p : List Char) :
    (replaceDigits p).length = p.length := by
  simp [replaceDigits]

theorem length_clean (x p : List Char) : (clean x p).length = p.length := by
  rw [clean, length_cleanInput, length_replaceDigits]

theorem length_prevAux (t : List Char) : ∀ j i, (prevAux j i t).length = t.length := by
  induction t with
  | nil => intro j i; rfl
  | cons c t ih =>
    intro j i
    simp only [prevAux, List.length_cons]
    rw [ih]

theorem mem_prevAux_le (t : List Char) :
    ∀ j i, j ≤ i → ∀ x ∈ prevAux j i t, x ≤ i + t.length := by
  induction t with
  | nil =>
    intro j i _ x hx
    cases hx
  | cons c t ih =>
    intro j i hji x hx
    simp only [prevAux] at hx
    rcases List.mem_cons.mp hx with rfl | hx
    · by_cases hs : isSlot c = true
      · rw [if_pos hs]
        simp only [List.length_cons]
        omega
      · rw [if_neg hs]
        simp only [List.length_cons]
        omega
    · by_cases hs : isSlot c = true
      · have := ih (i + 1) (i + 1) le_rfl x (by simpa [hs] using hx)
        simp only [List.length_cons]
        omega
      · have := ih j (i + 1) (by omega) x (by simpa [hs] using hx)
        simp only [List.length_cons]
        omega

theorem getLastD_mem (l : List Nat) (d : Nat) (h : l ≠ []) : l.getLastD d ∈ l := by
  induction l generalizing d with
  | nil => exact absurd rfl h
  | cons a l ih =>
    rw [List.getLastD_cons]
    cases l with
    | nil => exact List.mem_singleton.mpr rfl
    | cons b t =>
      exact List.mem_cons_of_mem a (ih a (by simp))

theorem getD_mem_of_lt (l : List Nat) (n : Nat) (d : Nat) (h : n < l.length) :
    l.getD n d ∈ l := by
  induction l generalizing n with
  | nil => simp at h
  | cons a l ih =>
    cases n with
    | zero => exact List.mem_cons_self a l
    | succ n =>
      have hn : n < l.length := by simpa using h
      exact List.mem_cons_of_mem a (ih n hn)

theorem mem_prev_le (pattern : List Char) : ∀ x ∈ prev pattern, x ≤ pattern.length := by
  intro x hx
  have := mem_prevAux_le (replaceDigits pattern) 0 0 le_rfl x hx
  rw [length_replaceDigits] at this
  omega

theorem length_prev (pattern : List Char) : (prev pattern).length = pattern.length := by
  rw [prev, length_prevAux, length_replaceDigits]

theorem first_of_some {pattern : List Char} {j : Nat}
    (h : pattern.findIdx? isSlot = some j) : first pattern = (j : Int) := by
  unfold first
  rw [h]

theorem caretOffset_of_none {pattern value : List Char} {sel : Nat} (back : Bool)
    (h : (clean (value.take sel) pattern).findIdx? isSlot = none) :
    caretOffset pattern back value sel = ((prev pattern).getLastD 0 : Int) := by
  unfold caretOffset
  rw [h]

theorem caretOffset_of_some {pattern value : List Char} {sel k : Nat} (back : Bool)
    (h : (clean (value.take sel) pattern).findIdx? isSlot = some k) :
    caretOffset pattern back value sel =
      if back then
        if k = 0 then first pattern
        else if (prev pattern).getD (k - 1) 0 = 0 then first pattern
        else ((prev pattern).getD (k - 1) 0 : Int)
      else (k : Int) := by
  unfold caretOffset
  rw [h]

theorem first_nonneg_lt (pattern : List Char) (hdot : '.' ∈ pattern) :
    0 ≤ first pattern ∧ first pattern < (pattern.length : Int) := by
  cases hfi : pattern.findIdx? isSlot with
  | none =>
    rw [List.findIdx?_eq_none_iff] at hfi
    have := hfi '.' hdot
    rw [isSlot_dot] at this
    cases this
  | some j =>
    have hj := (List.findIdx?_eq_some_iff_findIdx_eq.mp hfi).1
    rw [first_of_some hfi]
    constructor
    · exact Int.natCast_nonneg j
    · exact_mod_cast hj

theorem prevAux_getD_no_slot (t : List Char) :
    ∀ j i m, m < t.length → (∀ x, x ≤ m → isSlot (t.getD x ' ') = false) →
      (prevAux j i t).getD m 0 = j := by
  induction t with
  | nil =>
    intro j i m hm _
    simp at hm
  | cons c t ih =>
    intro j i m hm h
    have hc : isSlot c = false := by simpa using h 0 (Nat.zero_le m)
    simp only [prevAux, hc, if_false]
    cases m with
    | zero => rfl
    | succ m =>
      simp only [List.getD_cons_succ]
      exact ih j (i + 1) m (by simpa using hm)
        fun x hx => by simpa using h (x + 1) (Nat.succ_le_succ hx)

theorem prevAux_getD_slot (t : List Char) :
    ∀ j i g m, g ≤ m → m < t.length → isSlot (t.getD g ' ') = true →
      (∀ x, g < x → x ≤ m → isSlot (t.getD x ' ') = false) →
      (prevAux j i t).getD m 0 = i + g + 1 := by
  induction t with
  | nil =>
    intro j i g m _ hm _ _
    simp at hm
  | cons c t ih =>
    intro j i g m hgm hm hslot hafter
    cases g with
    | zero =>
      have hc : isSlot c = true := by simpa using hslot
      simp only [prevAux, hc, if_true]
      cases m with
      | zero => rfl
      | succ m =>
        simp only [List.getD_cons_succ]
        rw [prevAux_getD_no_slot t (i + 1) (i + 1) m (by simpa using hm)
          fun x hx => by simpa using hafter (x + 1) (Nat.succ_pos x) (Nat.succ_le_succ hx)]
    | succ g =>
      cases m with
      | zero => exact absurd hgm (by omega)
      | succ m =>
        have hgm2 : g ≤ m := Nat.le_of_succ_le_succ hgm
        simp only [prevAux]
        simp only [List.getD_cons_succ]
        have := ih (if isSlot c then i + 1 else j) (i + 1) g m hgm2
          (by simpa using hm) (by simpa using hslot)
          fun x hx1 hx2 => by
            simpa using hafter (x + 1) (Nat.succ_lt_succ hx1) (Nat.succ_le_succ hx2)
        rw [this]
        omega

/-! ### Claim C8: caret offsets and the display bound -/

/-- C8, counterexample.  With the US mask, old display anything, the user
replaces everything by the single digit "5" with caret (1,1): the tracker
computes offsets (4,4) (the first unfilled slot of the area group), but the
freshly formatted and trimmed display is "+5", of length 2 — the offsets
exceed the new display's length (the DOM clamps them; the code does not). -/
theorem claim8_counterexample :
    trackCaret "+1 (...) ...-....".data false "5".data (1, 1) = (4, 4) ∧
    (formatValue "+1 (...) ...-....".data "5".data).length = 2 ∧
    ¬ ((4 : Int) ≤ 2) := by
  refine ⟨by decide, by decide, by decide⟩

/-- C8 as amended: for every template containing at least one slot marker,
every value, selection offset and edit direction, the computed caret offset is
within `[0, length(template)]` — never negative and never past the TEMPLATE's
length; it may exceed the trimmed display string's length. -/
theorem claim8_amended_caret_bounds (pattern : List Char) (back : Bool)
    (value : List Char) (sel : Nat) (hdot : '.' ∈ pattern) :
    0 ≤ caretOffset pattern back value sel ∧
    caretOffset pattern back value sel ≤ (pattern.length : Int) := by
  have hfirst := first_nonneg_lt pattern hdot
  have hprevne : prev pattern ≠ [] := by
    have h1 : (prev pattern).length = pattern.length := length_prev pattern
    intro h
    rw [h] at h1
    have : pattern.length = 0 := by simpa using h1.symm
    rw [List.length_eq_zero] at this
    subst this
    cases hdot
  cases hf : (clean (value.take sel) pattern).findIdx? isSlot with
  | none =>
    rw [caretOffset_of_none back hf]
    have hmem := getLastD_mem (prev pattern) 0 hprevne
    have hle := mem_prev_le pattern _ hmem
    constructor
    · exact Int.natCast_nonneg _
    · exact_mod_cast hle
  | some k =>
    rw [caretOffset_of_some back hf]
    have hk : k < pattern.length := by
      have h2 := (List.findIdx?_eq_some_iff_findIdx_eq.mp hf).1
      rw [length_clean] at h2
      exact h2
    cases back with
    | false =>
      simp only [Bool.false_eq_true, if_false]
      constructor
      · exact Int.natCast_nonneg k
      · exact_mod_cast Nat.le_of_lt hk
    | true =>
      simp only [if_true]
      by_cases hk0 : k = 0
      · rw [if_pos hk0]
        exact ⟨hfirst.1, le_of_lt hfirst.2⟩
      · rw [if_neg hk0]
        by_cases hv : (prev pattern).getD (k - 1) 0 = 0
        · rw [if_pos hv]
          exact ⟨hfirst.1, le_of_lt hfirst.2⟩
        · rw [if_neg hv]
          have hlt : k - 1 < (prev pattern).length := by
            rw [length_prev]
            omega
          have hmem := getD_mem_of_lt (prev pattern) (k - 1) 0 hlt
          have hle := mem_prev_le pattern _ hmem
          constructor
          · exact Int.natCast_nonneg _
          · exact_mod_cast hle

/-- Witness for the amended C8 at the US mask, value "5", selection 1. -/
theorem claim8_amended_witness :
    0 ≤ caretOffset "+1 (...) ...-....".data false "5".data 1 ∧
    caretOffset "+1 (...) ...-....".data false "5".data 1 ≤
      ("+1 (...) ...-....".data.length : Int) :=
  claim8_amended_caret_bounds "+1 (...) ...-....".data false "5".data 1 (by decide)

/-! ### Claim C9: backspace stepping of the caret -/

/-- C9, counterexample.  On the all-slot template ".." with new value "1" and
selection offset 1, the first-unfilled-slot offset is 1 and the template's
first slot is at 0 (so a step to the left is available); yet with the
backspace flag set the tracker returns exactly the same offset 1 it returns
without the flag — it rests on the computed offset instead of stepping one
slot left of it. -/
theorem claim9_counterexample :
    caretOffset "..".data true "1".data 1 = caretOffset "..".data false "1".data 1 ∧
    caretOffset "..".data false "1".data 1 = 1 ∧
    first "..".data = 0 := by
  refine ⟨by decide, by decide, by decide⟩

/-- C9 as amended: when a first unfilled slot exists at offset `k`, the
backspace branch returns the boundary immediately AFTER the nearest slot of
the (digit-rewritten) template strictly left of `k` — which coincides with
`k` itself when the position `k - 1` is a slot — and falls back to the raw
template's first slot position when no slot lies left of `k`. -/
theorem claim9_amended_backspace (pattern value : List Char) (sel k : Nat)
    (hf : (clean (value.take sel) pattern).findIdx? isSlot = some k) :
    ((∀ x, x < k → isSlot ((replaceDigits pattern).getD x ' ') = false) →
      caretOffset pattern true value sel = first pattern) ∧
    (∀ g, g < k → isSlot ((replaceDigits pattern).getD g ' ') = true →
      (∀ x, g < x → x < k → isSlot ((replaceDigits pattern).getD x ' ') = false) →
      caretOffset pattern true value sel = (g : Int) + 1) := by
  have hk : k < pattern.length := by
    have h2 := (List.findIdx?_eq_some_iff_findIdx_eq.mp hf).1
    rw [length_clean] at h2
    exact h2
  constructor
  · intro hnone
    rw [caretOffset_of_some true hf]
    simp only [if_true]
    by_cases hk0 : k = 0
    · rw [if_pos hk0]
    · rw [if_neg hk0]
      have hv : (prev pattern).getD (k - 1) 0 = 0 := by
        rw [prev]
        exact prevAux_getD_no_slot (replaceDigits pattern) 0 0 (k - 1)
          (by rw [length_replaceDigits]; omega)
          fun x hx => hnone x (by omega)
      rw [if_pos hv]
  · intro g hg hslot hafter
    rw [caretOffset_of_some true hf]
    simp only [if_true]
    have hk0 : k ≠ 0 := by omega
    rw [if_neg hk0]
    have hv : (prev pattern).getD (k - 1) 0 = g + 1 := by
      rw [prev]
      have := prevAux_getD_slot (replaceDigits pattern) 0 0 g (k - 1)
        (by omega) (by rw [length_replaceDigits]; omega) hslot
        fun x hx1 hx2 => hafter x hx1 (by omega)
      simpa using this
    rw [if_neg (by omega : ¬ (prev pattern).getD (k - 1) 0 = 0)]
    rw [hv]
    push_cast
    ring

/-- Witness for the amended C9 at template ". .", value "1", selection 1:
the first unfilled slot is at 2, the nearest slot left of it is at 0, and the
backspace caret lands at 1, immediately after it. -/
theorem claim9_amended_witness :
    caretOffset ". .".data true "1".data 1 = (0 : Int) + 1 :=
  (claim9_amended_backspace ". .".data "1".data 1 2 (by decide)).2 0
    (by decide) (by decide)
    (by
      intro x h1 h2
      have hx : x = 1 := by omega
      subst hx
      decide)

/-! ### Support for the round-trip claim: mask rewriting and queue filling -/

theorem replaceDigits_append (a b : List Char) :
    replaceDigits (a ++ b) = replaceDigits a ++ replaceDigits b :=
  List.map_append _ a b

theorem replaceDigits_of_digits (l : List Char) (h : ∀ c ∈ l, c.isDigit = true) :
    replaceDigits l = List.replicate l.length '.' := by
  induction l with
  | nil => rfl
  | cons c t ih =>
    simp only [replaceDigits, List.map_cons, h c (List.mem_cons_self c t), if_true,
      List.length_cons, List.replicate_succ, List.cons.injEq, true_and]
    exact ih fun x hx => h x (List.mem_cons_of_mem c hx)

theorem replaceDigits_of_nondigits (l : List Char) (h : ∀ c ∈ l, c.isDigit = false) :
    replaceDigits l = l := by
  induction l with
  | nil => rfl
  | cons c t ih =>
    simp only [replaceDigits, List.map_cons, h c (List.mem_cons_self c t),
      Bool.false_eq_true, if_false, List.cons.injEq, true_and]
    exact ih fun x hx => h x (List.mem_cons_of_mem c hx)

theorem cleanGo_nondigit_literal (c : Char) (q t : List Char)
    (hq : ∀ x ∈ q, x.isDigit = true) (hc : c.isDigit = false)
    (hcs : isSlot c = false) :
    cleanGo q (c :: t) = c :: cleanGo q t := by
  cases q with
  | nil => rfl
  | cons d q2 =>
    have hd := hq d (List.mem_cons_self d q2)
    have hne : (d == c) = false := by
      rw [beq_eq_false_iff_ne]
      intro h
      rw [h] at hd
      rw [hd] at hc
      cases hc
    simp [cleanGo, hne, hcs]

theorem cleanGo_fill_dots (q1 q2 t : List Char) :
    cleanGo (q1 ++ q2) (List.replicate q1.length '.' ++ t) = q1 ++ cleanGo q2 t := by
  induction q1 with
  | nil => simp
  | cons d q1 ih =>
    simp only [List.length_cons, List.replicate_succ, List.cons_append]
    have : cleanGo (d :: (q1 ++ q2)) ('.' :: (List.replicate q1.length '.' ++ t)) =
        d :: cleanGo (q1 ++ q2) (List.replicate q1.length '.' ++ t) := by
      simp [cleanGo, isSlot_dot]
    rw [this, ih]

theorem mem_cleanGo (q t : List Char) : ∀ x ∈ cleanGo q t, x ∈ q ∨ x ∈ t := by
  induction t generalizing q with
  | nil =>
    intro x hx
    cases q <;> cases hx
  | cons c t ih =>
    intro x hx
    cases q with
    | nil =>
      rw [cleanGo_nil_queue] at hx
      exact Or.inr hx
    | cons d q2 =>
      by_cases h : (d == c || isSlot c) = true
      · rw [show cleanGo (d :: q2) (c :: t) = d :: cleanGo q2 t by simp [cleanGo, h]] at hx
        rcases List.mem_cons.mp hx with rfl | hx
        · exact Or.inl (List.mem_cons_self x q2)
        · rcases ih q2 x hx with h2 | h2
          · exact Or.inl (List.mem_cons_of_mem d h2)
          · exact Or.inr (List.mem_cons_of_mem c h2)
      · rw [show cleanGo (d :: q2) (c :: t) = c :: cleanGo (d :: q2) t by
          simp [cleanGo, h]] at hx
        rcases List.mem_cons.mp hx with rfl | hx
        · exact Or.inr (List.mem_cons_self x t)
        · rcases ih (d :: q2) x hx with h2 | h2
          · exact Or.inl h2
          · exact Or.inr (List.mem_cons_of_mem c h2)

/-! ### Support for the round-trip claim: display trimming -/

theorem dropWhile_append_of_ne_nil {p : Char → Bool} (l1 l2 : List Char)
    (h : l1.dropWhile p ≠ []) :
    (l1 ++ l2).dropWhile p = l1.dropWhile p ++ l2 := by
  induction l1 with
  | nil => exact absurd rfl h
  | cons a l1 ih =>
    by_cases hp : p a = true
    · rw [List.dropWhile_cons_of_pos hp] at h
      simp only [List.cons_append]
      rw [List.dropWhile_cons_of_pos hp, List.dropWhile_cons_of_pos hp]
      exact ih h
    · simp only [List.cons_append]
      rw [List.dropWhile_cons_of_neg hp, List.dropWhile_cons_of_neg hp]
      rfl

theorem dropWhile_append_of_all {p : Char → Bool} (l1 l2 : List Char)
    (h : ∀ x ∈ l1, p x = true) :
    (l1 ++ l2).dropWhile p = l2.dropWhile p := by
  induction l1 with
  | nil => rfl
  | cons a l1 ih =>
    simp only [List.cons_append]
    rw [List.dropWhile_cons_of_pos (h a (List.mem_cons_self a l1))]
    exact ih fun x hx => h x (List.mem_cons_of_mem a hx)

theorem mem_dropWhile_sub {p : Char → Bool} (l : List Char) :
    ∀ x ∈ l.dropWhile p, x ∈ l := by
  induction l with
  | nil => intro x hx; cases hx
  | cons a l ih =>
    intro x hx
    by_cases hp : p a = true
    · rw [List.dropWhile_cons_of_pos hp] at hx
      exact List.mem_cons_of_mem a (ih x hx)
    · rw [List.dropWhile_cons_of_neg hp] at hx
      exact hx

theorem dropTrailingNonDigits_append (a b : List Char)
    (hb : b.reverse.dropWhile (fun c => !c.isDigit) ≠ []) :
    dropTrailingNonDigits (a ++ b) = a ++ dropTrailingNonDigits b := by
  unfold dropTrailingNonDigits
  rw [List.reverse_append, dropWhile_append_of_ne_nil _ _ hb, List.reverse_append,
    List.reverse_reverse]

theorem dropWhile_not_digit_ne_nil (b : List Char) (hb : ∃ c ∈ b, c.isDigit = true) :
    b.reverse.dropWhile (fun c => !c.isDigit) ≠ [] := by
  rw [ne_eq, List.dropWhile_eq_nil_iff]
  intro h
  obtain ⟨c, hc, hcd⟩ := hb
  have := h c (List.mem_reverse.mpr hc)
  rw [hcd] at this
  cases this

theorem filter_dropWhile_not {l : List Char} :
    (l.dropWhile (fun c => !c.isDigit)).filter Char.isDigit = l.filter Char.isDigit := by
  induction l with
  | nil => rfl
  | cons a l ih =>
    by_cases ha : a.isDigit = true
    · rw [List.dropWhile_cons_of_neg (by simp [ha])]
    · rw [List.dropWhile_cons_of_pos (by simp [ha]), ih, List.filter_cons]
      simp [ha]

theorem filter_dropTrailingNonDigits (l : List Char) :
    (dropTrailingNonDigits l).filter Char.isDigit = l.filter Char.isDigit := by
  unfold dropTrailingNonDigits
  rw [List.filter_reverse, filter_dropWhile_not, List.filter_reverse,
    List.reverse_reverse]

theorem mem_dropTrailingNonDigits_sub (l : List Char) :
    ∀ x ∈ dropTrailingNonDigits l, x ∈ l := by
  intro x hx
  unfold dropTrailingNonDigits at hx
  rw [List.mem_reverse] at hx
  have := mem_dropWhile_sub _ x hx
  rwa [List.mem_reverse] at this

theorem endsParenDigits_eq (v : List Char) :
    endsParenDigits v =
      (!(v.reverse.takeWhile Char.isDigit).isEmpty &&
        ((v.reverse.dropWhile Char.isDigit).head? == some '(')) := by
  show (!(v.reverse.takeWhile Char.isDigit).isEmpty &&
      ((v.reverse.drop (v.reverse.takeWhile Char.isDigit).length).head? == some '(')) = _
  rw [← dropWhile_eq_drop_takeWhile]

theorem displayFormat_eq (v : List Char) :
    displayFormat v =
      if endsParenDigits (dropTrailingNonDigits v)
      then dropTrailingNonDigits v ++ [')']
      else dropTrailingNonDigits v := rfl

/-- The trailing-group repair never fires on a string whose prefix ends in a
space and whose trimmed tail contains no `(`. -/
theorem endsParen_false_shape (pre FR : List Char)
    (hpre : pre.reverse.head? = some ' ')
    (hFRnp : ∀ x ∈ FR, x ≠ '(') :
    endsParenDigits (pre ++ dropTrailingNonDigits FR) = false := by
  rw [endsParenDigits_eq]
  have hW : (dropTrailingNonDigits FR).reverse =
      FR.reverse.dropWhile (fun c => !c.isDigit) := by
    unfold dropTrailingNonDigits
    rw [List.reverse_reverse]
  rw [List.reverse_append, hW]
  suffices hhead : ((FR.reverse.dropWhile (fun c => !c.isDigit) ++
      pre.reverse).dropWhile Char.isDigit).head? ≠ some '(' by
    have hb : (((FR.reverse.dropWhile (fun c => !c.isDigit) ++
        pre.reverse).dropWhile Char.isDigit).head? == some '(') = false :=
      beq_eq_false_iff_ne.mpr hhead
    rw [hb, Bool.and_false]
  by_cases hWd : (FR.reverse.dropWhile (fun c => !c.isDigit)).dropWhile Char.isDigit = []
  · rw [dropWhile_append_of_all _ _ (List.dropWhile_eq_nil_iff.mp hWd)]
    cases hpr : pre.reverse with
    | nil =>
      rw [hpr] at hpre
      cases hpre
    | cons x xs =>
      rw [hpr] at hpre
      have hx : x = ' ' := by simpa using hpre
      subst hx
      rw [List.dropWhile_cons_of_neg (by decide)]
      simp only [List.head?_cons, ne_eq, Option.some.injEq]
      decide
  · rw [dropWhile_append_of_ne_nil _ _ hWd]
    cases hWdd : (FR.reverse.dropWhile (fun c => !c.isDigit)).dropWhile Char.isDigit with
    | nil => exact absurd hWdd hWd
    | cons x xs =>
      simp only [List.cons_append, List.head?_cons, ne_eq, Option.some.injEq]
      have hxFR : x ∈ FR := by
        have h1 : x ∈ (FR.reverse.dropWhile (fun c => !c.isDigit)).dropWhile Char.isDigit := by
          rw [hWdd]
          exact List.mem_cons_self x xs
        have h2 := mem_dropWhile_sub _ x h1
        have h3 := mem_dropWhile_sub _ x h2
        exact List.mem_reverse.mp h3
      exact hFRnp x hxFR

/-- Formatting a complete `dial ++ area ++ subscriber` digit string through a
US-shaped mask `+<dial> (<area slots>) <rest>` produces exactly
`+<dial> (<area>) <filled rest, trimmed>`. -/
theorem formatValue_structure (D A S rest : List Char)
    (hDdig : ∀ c ∈ D, c.isDigit = true)
    (hAdig : ∀ c ∈ A, c.isDigit = true)
    (hSdig : ∀ c ∈ S, c.isDigit = true)
    (hS : S ≠ [])
    (hrestnd : ∀ c ∈ rest, c.isDigit = false)
    (hrestnp : ∀ c ∈ rest, c ≠ '(' ∧ c ≠ ')')
    (hcount : slotCount rest = S.length) :
    formatValue
        (['+'] ++ D ++ [' ', '('] ++ List.replicate A.length '.' ++ [')', ' '] ++ rest)
        (D ++ (A ++ S)) =
      ['+'] ++ D ++ [' ', '('] ++ A ++ [')', ' '] ++
        dropTrailingNonDigits (cleanGo S rest) := by
  have hq1 : ∀ x ∈ D ++ (A ++ S), x.isDigit = true := by
    intro x hx
    rcases List.mem_append.mp hx with h | h
    · exact hDdig x h
    · rcases List.mem_append.mp h with h2 | h2
      · exact hAdig x h2
      · exact hSdig x h2
  have hq2 : ∀ x ∈ A ++ S, x.isDigit = true := by
    intro x hx
    rcases List.mem_append.mp hx with h | h
    · exact hAdig x h
    · exact hSdig x h
  have hmask : replaceDigits
      (['+'] ++ D ++ [' ', '('] ++ List.replicate A.length '.' ++ [')', ' '] ++ rest) =
      ['+'] ++ List.replicate D.length '.' ++ [' ', '('] ++ List.replicate A.length '.' ++
        [')', ' '] ++ rest := by
    rw [replaceDigits_append, replaceDigits_append, replaceDigits_append,
      replaceDigits_append, replaceDigits_append]
    rw [replaceDigits_of_nondigits ['+'] (by decide),
      replaceDigits_of_digits D hDdig,
      replaceDigits_of_nondigits [' ', '('] (by decide),
      replaceDigits_of_nondigits (List.replicate A.length '.')
        (fun c hc => by rw [List.eq_of_mem_replicate hc]; decide),
      replaceDigits_of_nondigits [')', ' '] (by decide),
      replaceDigits_of_nondigits rest hrestnd]
  have hfilterq : (D ++ (A ++ S)).filter Char.isDigit = D ++ (A ++ S) :=
    List.filter_eq_self.mpr hq1
  have hclean : clean (D ++ (A ++ S))
      (['+'] ++ D ++ [' ', '('] ++ List.replicate A.length '.' ++ [')', ' '] ++ rest) =
      '+' :: (D ++ (' ' :: ('(' :: (A ++ (')' :: (' ' :: cleanGo S rest)))))) := by
    rw [clean, cleanInput, hfilterq, hmask]
    simp only [List.cons_append, List.nil_append, List.append_assoc]
    rw [cleanGo_nondigit_literal '+' _ _ hq1 (by decide) (by decide)]
    rw [cleanGo_fill_dots]
    rw [cleanGo_nondigit_literal ' ' _ _ hq2 (by decide) (by decide)]
    rw [cleanGo_nondigit_literal '(' _ _ hq2 (by decide) (by decide)]
    rw [cleanGo_fill_dots]
    rw [cleanGo_nondigit_literal ')' _ _ hSdig (by decide) (by decide)]
    rw [cleanGo_nondigit_literal ' ' _ _ hSdig (by decide) (by decide)]
  have hFRfilter : (cleanGo S rest).filter Char.isDigit = S := by
    rw [filter_cleanGo S rest hSdig hrestnd, hcount, List.take_length]
  have hFRdig : ∃ c ∈ cleanGo S rest, c.isDigit = true := by
    obtain ⟨s0, hs0⟩ : ∃ s0, s0 ∈ S := by
      cases S with
      | nil => exact absurd rfl hS
      | cons s0 S2 => exact ⟨s0, List.mem_cons_self s0 S2⟩
    have h1 : s0 ∈ (cleanGo S rest).filter Char.isDigit := by
      rw [hFRfilter]
      exact hs0
    obtain ⟨h2, h3⟩ := List.mem_filter.mp h1
    exact ⟨s0, h2, h3⟩
  have hWne := dropWhile_not_digit_ne_nil (cleanGo S rest) hFRdig
  have hFRnp : ∀ x ∈ cleanGo S rest, x ≠ '(' := by
    intro x hx
    rcases mem_cleanGo S rest x hx with h | h
    · intro he
      have := hSdig x h
      rw [he] at this
      exact absurd this (by decide)
    · exact (hrestnp x h).1
  have hsplit : '+' :: (D ++ (' ' :: ('(' :: (A ++ (')' :: (' ' :: cleanGo S rest)))))) =
      (['+'] ++ D ++ [' ', '('] ++ A ++ [')', ' ']) ++ cleanGo S rest := by
    simp [List.append_assoc]
  have hpre : (['+'] ++ D ++ [' ', '('] ++ A ++ [')', ' ']).reverse.head? = some ' ' := by
    simp [List.reverse_append]
  rw [formatValue, displayFormat_eq, hclean, hsplit]
  rw [dropTrailingNonDigits_append _ _ hWne]
  rw [if_neg (by rw [endsParen_false_shape _ _ hpre hFRnp]; exact Bool.false_ne_true)]

theorem findPlusRun_shape (D A FR2 : List Char)
    (hDdig : ∀ c ∈ D, c.isDigit = true) (hDne : D ≠ []) :
    findPlusRun (['+'] ++ D ++ [' ', '('] ++ A ++ [')', ' '] ++ FR2) = some D := by
  have hT : ['+'] ++ D ++ [' ', '('] ++ A ++ [')', ' '] ++ FR2 =
      '+' :: (D ++ (' ' :: ('(' :: (A ++ (')' :: (' ' :: FR2)))))) := by
    simp [List.append_assoc]
  rw [hT]
  have hrun : (D ++ (' ' :: ('(' :: (A ++ (')' :: (' ' :: FR2)))))).takeWhile
      Char.isDigit = D :=
    takeWhile_append_sat hDdig (by
      intro d hd
      simp only [List.head?_cons, Option.some.injEq] at hd
      subst hd
      decide)
  have hde : D.isEmpty = false := by
    cases D with
    | nil => exact absurd rfl hDne
    | cons a t => rfl
  simp only [findPlusRun, beq_self_eq_true, if_true]
  rw [hrun, hde]
  rfl

theorem findParenRun_skip (xs rest2 : List Char) (h : '(' ∉ xs) :
    findParenRun (xs ++ rest2) = findParenRun rest2 := by
  induction xs with
  | nil => rfl
  | cons c xs ih =>
    have hc : c ≠ '(' := by
      intro he
      exact h (he ▸ List.mem_cons_self c xs)
    have hcb : (c == '(') = false := by simpa using hc
    simp only [List.cons_append, findParenRun, hcb, Bool.false_eq_true, if_false]
    exact ih fun hx => h (List.mem_cons_of_mem c hx)

theorem findParenRun_shape (D A FR2 : List Char)
    (hDdig : ∀ c ∈ D, c.isDigit = true)
    (hAdig : ∀ c ∈ A, c.isDigit = true) (hAne : A ≠ []) :
    findParenRun (['+'] ++ D ++ [' ', '('] ++ A ++ [')', ' '] ++ FR2) = some A := by
  have hT : ['+'] ++ D ++ [' ', '('] ++ A ++ [')', ' '] ++ FR2 =
      (['+'] ++ D ++ [' ']) ++ ('(' :: (A ++ (')' :: (' ' :: FR2)))) := by
    simp [List.append_assoc]
  have hnotin : '(' ∉ ['+'] ++ D ++ [' '] := by
    intro hx
    rcases List.mem_append.mp hx with hx | hx
    · rcases List.mem_append.mp hx with hx | hx
      · rcases List.mem_singleton.mp hx with h
        cases h
      · have := hDdig '(' hx
        exact absurd this (by decide)
    · rcases List.mem_singleton.mp hx with h
      cases h
  rw [hT, findParenRun_skip _ _ hnotin]
  have hrun : (A ++ (')' :: (' ' :: FR2))).takeWhile Char.isDigit = A :=
    takeWhile_append_sat hAdig (by
      intro d hd
      simp only [List.head?_cons, Option.some.injEq] at hd
      subst hd
      decide)
  have hae : A.isEmpty = false := by
    cases A with
    | nil => exact absurd rfl hAne
    | cons a t => rfl
  simp only [findParenRun, beq_self_eq_true, if_true]
  rw [hrun, hae]
  rw [List.drop_left]
  rfl

theorem getRawValue_shape (D A FR2 S : List Char)
    (hDdig : ∀ c ∈ D, c.isDigit = true)
    (hAdig : ∀ c ∈ A, c.isDigit = true)
    (hFR2filter : FR2.filter Char.isDigit = S) :
    getRawValue (['+'] ++ D ++ [' ', '('] ++ A ++ [')', ' '] ++ FR2) =
      D ++ A ++ S := by
  unfold getRawValue
  simp only [List.filter_append]
  rw [List.filter_eq_self.mpr hDdig, List.filter_eq_self.mpr hAdig, hFR2filter]
  have h1 : ['+'].filter Char.isDigit = [] := by decide
  have h2 : [' ', '('].filter Char.isDigit = [] := by decide
  have h3 : [')', ' '].filter Char.isDigit = [] := by decide
  rw [h1, h2, h3]
  simp

/-! ### Claim C5: parser round-trip on a complete number -/

/-- C5.  Parser round-trip: a complete number built from the integer triple
`(cc, area, subscriber)` — with nonzero area code, nonempty subscriber digit
string, and a US-shaped mask `+<dial digits> (<area slots>) <rest>` whose
subscriber slot count equals the subscriber's length — formats and then
parses back to exactly the original subscriber number.  The candidate list
and pin are irrelevant to the subscriber field. -/
theorem claim5_parser_roundtrip (cc area : Nat) (S rest : List Char)
    (candidates : List CountryRecord) (pin : Option String)
    (harea : area ≠ 0) (hS : S ≠ []) (hSdig : ∀ c ∈ S, c.isDigit = true)
    (hrest : ∀ c ∈ rest, c = '.' ∨ (c.isDigit = false ∧ c ≠ '(' ∧ c ≠ ')'))
    (hcount : slotCount rest = S.length) :
    (parsePhoneNumber
      (formatValue
        (['+'] ++ natRepr cc ++ [' ', '('] ++
          List.replicate (natRepr area).length '.' ++ [')', ' '] ++ rest)
        (natRepr cc ++ (natRepr area ++ S)))
      candidates pin).phoneNumber = some S := by
  have hDdig := natRepr_all_digits cc
  have hAdig := natRepr_all_digits area
  have hDne := natRepr_ne_nil cc
  have hAne := natRepr_ne_nil area
  have hrestnd : ∀ c ∈ rest, c.isDigit = false := by
    intro c hc
    rcases hrest c hc with rfl | ⟨h1, _, _⟩
    · decide
    · exact h1
  have hrestnp : ∀ c ∈ rest, c ≠ '(' ∧ c ≠ ')' := by
    intro c hc
    rcases hrest c hc with rfl | ⟨_, h2, h3⟩
    · exact ⟨by decide, by decide⟩
    · exact ⟨h2, h3⟩
  rw [formatValue_structure (natRepr cc) (natRepr area) S rest hDdig hAdig hSdig hS
    hrestnd hrestnp hcount]
  have hFR2filter : (dropTrailingNonDigits (cleanGo S rest)).filter Char.isDigit = S := by
    rw [filter_dropTrailingNonDigits, filter_cleanGo S rest hSdig hrestnd, hcount,
      List.take_length]
  have hplus := findPlusRun_shape (natRepr cc) (natRepr area)
    (dropTrailingNonDigits (cleanGo S rest)) hDdig hDne
  have hparen := findParenRun_shape (natRepr cc) (natRepr area)
    (dropTrailingNonDigits (cleanGo S rest)) hDdig hAdig hAne
  have hraw := getRawValue_shape (natRepr cc) (natRepr area)
    (dropTrailingNonDigits (cleanGo S rest)) S hDdig hAdig hFR2filter
  rw [parsePhoneNumber_phoneNumber, hplus, hparen]
  simp only [Option.map_some']
  rw [natOfChars_natRepr, natOfChars_natRepr]
  have hlit : ccAreaLit (some cc) (some area) = natRepr cc ++ natRepr area := by
    simp [ccAreaLit, harea]
  rw [hlit, hraw]
  have hassoc : natRepr cc ++ natRepr area ++ S = (natRepr cc ++ natRepr area) ++ S := rfl
  rw [hassoc, List.drop_left, takeWhile_eq_self_of_sat hSdig]
  rw [(startsWith_iff ((natRepr cc ++ natRepr area) ++ S) (natRepr cc ++ natRepr area)).mpr
    ⟨S, rfl⟩]
  have hSE : S.isEmpty = false := by
    cases S with
    | nil => exact absurd rfl hS
    | cons a t => rfl
  rw [hSE]
  rfl

/-- Witness for C5: the spec's US scenario — country code 1, area code 202,
subscriber "5551234", mask `+1 (...) ...-....` — parses back to "5551234". -/
theorem claim5_witness :
    (parsePhoneNumber
      (formatValue
        (['+'] ++ natRepr 1 ++ [' ', '('] ++
          List.replicate (natRepr 202).length '.' ++ [')', ' '] ++ "...-....".data)
        (natRepr 1 ++ (natRepr 202 ++ "5551234".data)))
      [] none).phoneNumber = some "5551234".data :=
  claim5_parser_roundtrip 1 202 "5551234".data "...-....".data [] none
    (by decide) (by decide) (by decide) (by decide) (by decide)

end AntdPhone
